import Mathlib

/-!
# Verification of the Burrow reporting client

A shallow embedding of `burrow_client.py` (the Burrow API client and
response-data formatter) together with proofs about its cache layer,
filter engine, partition-stats normalizer, aggregators and number
formatting.

JSON trees handled by the Python code are modelled by the `PyVal` type;
Python exceptions are modelled with the `Except PyErr` monad.  Calls into
external libraries with no observable logic of their own (the `datetime`
rendering of dates and ages) are modelled as function parameters.
-/

namespace Burrow

/-- A Python/JSON value as handled by the client: `None`, booleans,
integers, strings, lists and string-keyed dictionaries (all dictionaries
that reach the client come from JSON objects, whose keys are strings). -/
inductive PyVal where
  | none
  | bool (b : Bool)
  | int (n : Int)
  | str (s : String)
  | list (xs : List PyVal)
  | dict (kvs : List (String × PyVal))
deriving Repr

mutual

/-- Structural equality of Python values (`==` on JSON trees). -/
def pyBeq : PyVal → PyVal → Bool
  | .none, .none => true
  | .bool a, .bool b => a == b
  | .int a, .int b => a == b
  | .str a, .str b => a == b
  | .list xs, .list ys => pyBeqList xs ys
  | .dict xs, .dict ys => pyBeqKvs xs ys
  | _, _ => false

def pyBeqList : List PyVal → List PyVal → Bool
  | [], [] => true
  | x :: xs, y :: ys => pyBeq x y && pyBeqList xs ys
  | _, _ => false

def pyBeqKvs : List (String × PyVal) → List (String × PyVal) → Bool
  | [], [] => true
  | (k1, v1) :: xs, (k2, v2) :: ys => k1 == k2 && pyBeq v1 v2 && pyBeqKvs xs ys
  | _, _ => false

end

instance : BEq PyVal := ⟨pyBeq⟩

/-- The Python exception classes that the embedded code can raise. -/
inductive PyErr where
  | valueError
  | typeError
  | attributeError
  | keyError
  | runtimeError
deriving Repr, BEq, DecidableEq

/-- Python truthiness (`bool(x)`): `None`, `False`, `0`, `""`, `[]` and
`{}` are falsy, everything else is truthy. -/
def isTruthy : PyVal → Bool
  | .none => false
  | .bool b => b
  | .int n => n != 0
  | .str s => !s.isEmpty
  | .list xs => !xs.isEmpty
  | .dict kvs => !kvs.isEmpty

/-- First-match lookup in an association list (Python dictionaries have
unique keys, so this is dictionary lookup). -/
def dictLookup (kvs : List (String × PyVal)) (k : String) : Option PyVal :=
  match kvs with
  | [] => Option.none
  | (k', v) :: rest => if k' = k then some v else dictLookup rest k

/-- Python's `d.get(k, default)`: `AttributeError` when the receiver is
not a dictionary (only dictionaries among our values have `.get`). -/
def pyGet (v : PyVal) (k : String) (dflt : PyVal) : Except PyErr PyVal :=
  match v with
  | .dict kvs => .ok ((dictLookup kvs k).getD dflt)
  | _ => .error .attributeError

/-- Python's `c[k]` subscript for a string key: dictionary lookup with
`KeyError` on a missing key, `TypeError` on non-subscriptable values. -/
def pyIndex (v : PyVal) (k : String) : Except PyErr PyVal :=
  match v with
  | .dict kvs =>
    match dictLookup kvs k with
    | some x => .ok x
    | Option.none => .error .keyError
  | _ => .error .typeError

/-- Python's `k in c` for a string-literal key: key membership for
dictionaries, element membership for lists, substring test for strings. -/
def pyIn (k : String) : PyVal → Except PyErr Bool
  | .dict kvs => .ok ((dictLookup kvs k).isSome)
  | .list xs => .ok (xs.contains (.str k))
  | .str s => .ok (k.isEmpty || (s.splitOn k).length > 1)
  | _ => .error .typeError

/-! ## Regular expressions

`match_topic` / `match_consumer` call Python's `re.match`, which tries to
match the compiled pattern at the *beginning* of the string (it succeeds
when the pattern matches some prefix, unlike `re.fullmatch`).  We model
compiled patterns as a regular-expression syntax tree with
Brzozowski-derivative matching; the translation from pattern strings to
trees (`re.compile`) is kept as a parameter `compile` since no claim
depends on the concrete pattern syntax. -/

/-- A compiled regular expression. -/
inductive Regex where
  | emptyset
  | epsilon
  | char (c : Char)
  | any
  | concat (r₁ r₂ : Regex)
  | alt (r₁ r₂ : Regex)
  | star (r : Regex)
deriving Repr

/-- Does the regex accept the empty string? -/
def nullable : Regex → Bool
  | .emptyset => false
  | .epsilon => true
  | .char _ => false
  | .any => false
  | .concat a b => nullable a && nullable b
  | .alt a b => nullable a || nullable b
  | .star _ => true

/-- Brzozowski derivative of a regex with respect to one character. -/
def deriv : Regex → Char → Regex
  | .emptyset, _ => .emptyset
  | .epsilon, _ => .emptyset
  | .char c, x => if c = x then .epsilon else .emptyset
  | .any, _ => .epsilon
  | .concat a b, x =>
    if nullable a then .alt (.concat (deriv a x) b) (deriv b x)
    else .concat (deriv a x) b
  | .alt a b, x => .alt (deriv a x) (deriv b x)
  | .star r, x => .concat (deriv r x) (.star r)

/-- The regex matches the whole character list (`re.fullmatch`). -/
def fullMatch (r : Regex) (cs : List Char) : Bool :=
  nullable (cs.foldl deriv r)

/-- The regex matches some prefix of the character list. -/
def matchesPrefixAux (r : Regex) : List Char → Bool
  | [] => nullable r
  | c :: rest => nullable r || matchesPrefixAux (deriv r c) rest

/-- Python's `re.match(r, s)` viewed as a boolean: the compiled pattern
matches at the beginning of `s`, i.e. matches some prefix of `s`. -/
def re_match (r : Regex) (s : String) : Bool :=
  matchesPrefixAux r s.data

/-- Truthiness of an optional string attribute (`None` and `""` are
falsy). -/
def optTruthy : Option String → Bool
  | Option.none => false
  | some s => !s.isEmpty

/-- `BurrowClient.match_topic`: no (truthy) filter means unconditional
match; an empty/absent value is rejected when a filter is set; otherwise
the compiled filter pattern is matched at the beginning of the value. -/
def match_topic (compile : String → Regex) (filter_topic : Option String)
    (topic : PyVal) : Except PyErr Bool :=
  if !(optTruthy filter_topic) then .ok true
  else if !(isTruthy topic) then .ok false
  else match topic with
    | .str s => .ok (re_match (compile (filter_topic.getD "")) s)
    | _ => .error .typeError

/-- `BurrowClient.match_consumer`: same logic as `match_topic`, applied
to the consumer-group filter. -/
def match_consumer (compile : String → Regex) (filter_consumer : Option String)
    (consumer : PyVal) : Except PyErr Bool :=
  if !(optTruthy filter_consumer) then .ok true
  else if !(isTruthy consumer) then .ok false
  else match consumer with
    | .str s => .ok (re_match (compile (filter_consumer.getD "")) s)
    | _ => .error .typeError

/-! ## Response cache

All keyed accessors (`cluster_details`, `topics`, `topic_details`,
`consumers`, `consumer_details`, `consumer_status`) share the same shape:
look the key up in the per-accessor dictionary; on a miss perform one
`request`, extract the payload field from the envelope with a falsy
default, and store the payload only when it is truthy.  `cachedFetch` is
that common shape with the envelope extraction as a parameter; the
response delivered by `request` is also a parameter (the HTTP transport
is out of scope).  The returned boolean records whether `request` was
invoked. -/

/-- One call to a keyed cache accessor.  Returns the value handed to the
caller, the updated cache dictionary, and whether `request` ran. -/
def cachedFetch (extract : PyVal → Except PyErr PyVal)
    (cache : List (String × PyVal)) (key : String) (response : PyVal) :
    Except PyErr (PyVal × List (String × PyVal) × Bool) :=
  match dictLookup cache key with
  | some v => .ok (v, cache, false)
  | Option.none =>
    match extract response with
    | .error e => .error e
    | .ok v =>
      if isTruthy v then .ok (v, (key, v) :: cache, true)
      else .ok (v, cache, true)

/-- The `clusters` property: the cache slot is a single attribute
(initially `None`) guarded by truthiness rather than key membership. -/
def clustersFetch (cached : PyVal) (response : PyVal) :
    Except PyErr (PyVal × PyVal × Bool) :=
  if isTruthy cached then .ok (cached, cached, false)
  else
    match pyGet response "clusters" (.list []) with
    | .error e => .error e
    | .ok cl =>
      if isTruthy cl then .ok (cl, cl, true) else .ok (cl, cached, true)

/-- `BurrowClient.cluster_details`, keyed by cluster name. -/
def cluster_details_fetch (cache : List (String × PyVal)) (cluster : String)
    (response : PyVal) : Except PyErr (PyVal × List (String × PyVal) × Bool) :=
  cachedFetch (fun d => pyGet d "module" (.dict [])) cache cluster response

/-- `BurrowClient.topics`, keyed by cluster name. -/
def topics_fetch (cache : List (String × PyVal)) (cluster : String)
    (response : PyVal) : Except PyErr (PyVal × List (String × PyVal) × Bool) :=
  cachedFetch (fun d => pyGet d "topics" (.list [])) cache cluster response

/-- `BurrowClient.topic_details`, keyed by `"{cluster}-{topic}"`. -/
def topic_details_fetch (cache : List (String × PyVal)) (cluster topic : String)
    (response : PyVal) : Except PyErr (PyVal × List (String × PyVal) × Bool) :=
  cachedFetch (fun d => pyGet d "offsets" (.list []))
    cache (cluster ++ "-" ++ topic) response

/-- `BurrowClient.consumers`, keyed by cluster name. -/
def consumers_fetch (cache : List (String × PyVal)) (cluster : String)
    (response : PyVal) : Except PyErr (PyVal × List (String × PyVal) × Bool) :=
  cachedFetch (fun d => pyGet d "consumers" (.list [])) cache cluster response

/-- `BurrowClient.consumer_details`, keyed by `"{cluster}-{consumer}"`. -/
def consumer_details_fetch (cache : List (String × PyVal)) (cluster consumer : String)
    (response : PyVal) : Except PyErr (PyVal × List (String × PyVal) × Bool) :=
  cachedFetch (fun d => pyGet d "topics" (.dict []))
    cache (cluster ++ "-" ++ consumer) response

/-- `BurrowClient.consumer_status`, keyed by `"{cluster}-{consumer}"`. -/
def consumer_status_fetch (cache : List (String × PyVal)) (cluster consumer : String)
    (response : PyVal) : Except PyErr (PyVal × List (String × PyVal) × Bool) :=
  cachedFetch (fun d => pyGet d "status" (.dict []))
    cache (cluster ++ "-" ++ consumer) response

/-- A sequence of accessor calls against one cache dictionary; each call
carries its key and the envelope that `request` would deliver.  Returns,
per call, the key and whether `request` actually ran. -/
def runCalls (extract : PyVal → Except PyErr PyVal) :
    List (String × PyVal) → List (String × PyVal) →
    Except PyErr (List (String × Bool))
  | _cache, [] => .ok []
  | cache, (k, r) :: rest =>
    match cachedFetch extract cache k r with
    | .error e => .error e
    | .ok (_, c2, req) =>
      match runCalls extract c2 rest with
      | .error e => .error e
      | .ok tail => .ok ((k, req) :: tail)

/-- How often `request` ran for a given key along a call log. -/
def countReqs (k : String) (log : List (String × Bool)) : Nat :=
  (log.filter (fun e => e.1 == k && e.2)).length

/-! ## int() conversion and number formatting -/

/-- Digit run to a number; `Option.none` unless the run is a non-empty
all-digit sequence. -/
def digitsToNat (cs : List Char) : Option Nat :=
  if cs.isEmpty then Option.none
  else if cs.all Char.isDigit then
    some (cs.foldl (fun a c => a * 10 + (c.toNat - 48)) 0)
  else Option.none

/-- Python `int(s)` on a string: surrounding whitespace is allowed, then
an optional sign and a non-empty digit run. -/
def parseIntStr (s : String) : Option Int :=
  let cs := ((s.data.dropWhile Char.isWhitespace).reverse.dropWhile
    Char.isWhitespace).reverse
  match cs with
  | '-' :: rest => (digitsToNat rest).map (fun m => -(m : Int))
  | '+' :: rest => (digitsToNat rest).map (fun m => (m : Int))
  | rest => (digitsToNat rest).map (fun m => (m : Int))

/-- Python `int(x)`: identity on ints, 0/1 on booleans, string parsing
with `ValueError` on failure, `TypeError` on `None`, lists and dicts. -/
def pyToInt : PyVal → Except PyErr Int
  | .bool b => .ok (if b then 1 else 0)
  | .int n => .ok n
  | .str s =>
    match parseIntStr s with
    | some n => .ok n
    | Option.none => .error .valueError
  | _ => .error .typeError

/-- Insert a `','` after every three characters, walking a digit list
given least-significant first (the list is reversed around this). -/
def insertCommas : List Char → List Char
  | a :: b :: c :: d :: rest => a :: b :: c :: ',' :: insertCommas (d :: rest)
  | l => l

/-- Python's `'{:,}'.format(n)`: the absolute value's digits grouped in
threes from the right with `','` separators, with a leading `-` for
negative numbers. -/
def commaFormat (n : Int) : String :=
  let ds := (Nat.repr n.natAbs).data
  (if n < 0 then "-" else "") ++ String.mk ((insertCommas ds.reverse).reverse)

/-- The pure rendering step of `format_number`. -/
def formatInt (decimal : Bool) (n : Int) : String :=
  if decimal then commaFormat n else Int.repr n

/-- `BurrowClient.format_number`: coerce to int (this can raise), then
render either with or without decimal separators. -/
def format_number (decimal : Bool) (number : PyVal) : Except PyErr String := do
  let n ← pyToInt number
  pure (formatInt decimal n)

/-! ## Timestamp rendering

`timestamp_to_date` / `timestamp_to_age` convert their input with
`int(...)` inside a `try` block whose `except` clause catches **only**
`RuntimeError`; `int(...)` raises `ValueError` (bad string) or
`TypeError` (`None`, list, dict), so those escape.  The `datetime`
rendering of the successfully converted value (and, for ages, the
wall-clock `now`) has no logic of its own and is modelled as the
function parameter `render`. -/

/-- `BurrowClient.timestamp_to_date`. -/
def timestamp_to_date (render : Int → String) (timestamp : PyVal) :
    Except PyErr String :=
  match pyToInt timestamp with
  | .ok n => .ok (render n)
  | .error e => if e == .runtimeError then .ok "?" else .error e

/-- `BurrowClient.timestamp_to_age`. -/
def timestamp_to_age (render : Int → String) (timestamp : PyVal) :
    Except PyErr String :=
  match pyToInt timestamp with
  | .ok n => .ok (render n)
  | .error e => if e == .runtimeError then .ok "?" else .error e

/-! ## Partition stats normalizer -/

/-- The uniform stats record produced by `get_partition_stats` (the
Python function returns a dict with exactly these keys). -/
structure PartitionStats where
  topic : PyVal
  lag : PyVal
  offset : PyVal
  timestamp : PyVal
  status : PyVal
  owner : PyVal
  partition : PyVal
deriving Repr

/-- The `end` object of a raw partition record: `raw.get('end', {})`,
replaced by `{}` when it is not a dict. -/
def endFieldOf (kvs : List (String × PyVal)) : List (String × PyVal) :=
  match (dictLookup kvs "end").getD (.dict []) with
  | .dict e => e
  | _ => []

/-- `BurrowClient.get_partition_stats` on a dict argument: extract a
uniform stats record from a raw partition JSON object.  `lag` comes from
the `current_lag` key when that key is present (`dict.get` returns the
stored value — even `None` — whenever the key exists), else from
`end.lag` with default 0. -/
def get_partition_stats_dict (kvs : List (String × PyVal)) : PartitionStats :=
  { topic := (dictLookup kvs "topic").getD (.str "?")
    lag :=
      match dictLookup kvs "current_lag" with
      | some v => v
      | Option.none => (dictLookup (endFieldOf kvs) "lag").getD (.int 0)
    offset := (dictLookup (endFieldOf kvs) "offset").getD (.int 0)
    timestamp := (dictLookup (endFieldOf kvs) "timestamp").getD (.int 0)
    status := (dictLookup kvs "status").getD (.str "?")
    owner := (dictLookup kvs "owner").getD (.str "?")
    partition := (dictLookup kvs "partition").getD (.str "?") }

/-- `BurrowClient.get_partition_stats`: calling it on a non-dict raises
`AttributeError` (`.get` is missing). -/
def get_partition_stats : PyVal → Except PyErr PartitionStats
  | .dict kvs => .ok (get_partition_stats_dict kvs)
  | _ => .error .attributeError

/-! ## Comparisons, iteration and container helpers -/

/-- Numeric view for Python comparisons (`bool` compares as 0/1). -/
def toCmpInt : PyVal → Option Int
  | .int n => some n
  | .bool b => some (if b then 1 else 0)
  | _ => Option.none

/-- Lexicographic comparison of character lists (Python string `<`),
written as an executable recursion. -/
def charsLtB : List Char → List Char → Bool
  | [], [] => false
  | [], _ :: _ => true
  | _ :: _, [] => false
  | a :: as, b :: bs =>
    if a < b then true else if b < a then false else charsLtB as bs

/-- Python string `<` as a boolean. -/
def strLtB (a b : String) : Bool :=
  charsLtB a.data b.data

/-- Python `a < b`: defined for number/number and string/string pairs,
`TypeError` otherwise. -/
def pyLt (a b : PyVal) : Except PyErr Bool :=
  match a, b with
  | .str s, .str t => .ok (strLtB s t)
  | _, _ =>
    match toCmpInt a, toCmpInt b with
    | some x, some y => .ok (decide (x < y))
    | _, _ => .error .typeError

/-- Python `a > b` (for the types above, `a > b` iff `b < a`). -/
def pyGt (a b : PyVal) : Except PyErr Bool :=
  pyLt b a

/-- Python `max(xs)`: `ValueError` on an empty sequence, otherwise a
left fold keeping the current maximum (`item > current` to replace). -/
def pyMaxList : List PyVal → Except PyErr PyVal
  | [] => .error .valueError
  | x :: rest =>
    rest.foldlM (fun acc y => do
      let g ← pyGt y acc
      pure (if g then y else acc)) x

/-- Python `min(xs)`: `ValueError` on an empty sequence. -/
def pyMinList : List PyVal → Except PyErr PyVal
  | [] => .error .valueError
  | x :: rest =>
    rest.foldlM (fun acc y => do
      let l ← pyLt y acc
      pure (if l then y else acc)) x

/-- Python iteration (`for x in v`): list elements, string characters,
dictionary keys; `TypeError` on non-iterables. -/
def pyIter : PyVal → Except PyErr (List PyVal)
  | .list xs => .ok xs
  | .str s => .ok (s.data.map (fun c => .str (String.mk [c])))
  | .dict kvs => .ok (kvs.map (fun kv => .str kv.1))
  | _ => .error .typeError

/-- Python `sep.join(xs)`: `TypeError` when any element is not a
string. -/
def pyJoin (sep : String) (xs : List PyVal) : Except PyErr String := do
  let strs ← xs.mapM (fun v =>
    match v with
    | .str s => Except.ok s
    | _ => Except.error PyErr.typeError)
  pure (String.intercalate sep strs)

/-- One insertion step of Python's `sorted` (by a key into `PyVal`):
the new element goes in front of the first strictly greater element. -/
def pyOrderedInsertByKey (key : α → PyVal) (x : α) :
    List α → Except PyErr (List α)
  | [] => .ok [x]
  | y :: rest => do
    let b ← pyLt (key x) (key y)
    if b then .ok (x :: y :: rest)
    else do
      let r ← pyOrderedInsertByKey key x rest
      .ok (y :: r)

/-- Python's `sorted` by a key (and `PrettyTable`'s `sortby=` column
sort), as an insertion sort over `pyLt`.  Python's sort is stable and
insertion sort is not, but everywhere we use it ties are impossible
(sorted sets have pairwise-distinct elements) or tied rows are fully
identical, so the results agree. -/
def pySortByKey (key : α → PyVal) : List α → Except PyErr (List α)
  | [] => .ok []
  | x :: rest => do
    let r ← pySortByKey key rest
    pyOrderedInsertByKey key x r

/-- Python `sorted` on plain values. -/
def pySorted (xs : List PyVal) : Except PyErr (List PyVal) :=
  pySortByKey id xs

/-- Python `set.add` modelled on an insertion-ordered duplicate-free
list (the set is only ever observed through `sorted`). -/
def setAdd (s : List PyVal) (x : PyVal) : List PyVal :=
  if s.contains x then s else s ++ [x]

/-- Hashability: lists and dicts are unhashable (set insertion and
dictionary keying raise `TypeError` on them). -/
def pyHashable : PyVal → Bool
  | .list _ => false
  | .dict _ => false
  | _ => true

/-- The `topics` tally of `report_consumer_status`: first occurrence
inserts count 1, later occurrences increment. -/
def tallyAdd : List (PyVal × Nat) → PyVal → List (PyVal × Nat)
  | [], k => [(k, 1)]
  | (k', c) :: rest, k =>
    if k' == k then (k', c + 1) :: rest else (k', c) :: tallyAdd rest k

/-- Python `str(x)` for scalar values.  Container rendering is modelled
as an error: the only place `str` is applied to a data value is the
`'{topic}[{partitions}]'` rendering, whose keys can never be containers
(unhashable values are rejected when the tally dictionary is built). -/
def pyStrScalar : PyVal → Except PyErr String
  | .none => .ok "None"
  | .bool b => .ok (if b then "True" else "False")
  | .int n => .ok (Int.repr n)
  | .str s => .ok s
  | .list _ => .error .typeError
  | .dict _ => .error .typeError

/-! ## Aggregators

Rows are the Python lists handed to `PrettyTable.add_row`, so a row is a
`List PyVal`.  Date/age rendering parameters stand for the `datetime`
calls, as above. -/

/-- The per-topic computation of `BurrowClient.report_topics`: the raw
offset list, its length as the partition count, `max`/`min` over it and
the comma-joined formatted offsets (computed in source order, which
fixes which error fires first). -/
structure TopicRowData where
  topic : PyVal
  partitions : Nat
  minOffset : PyVal
  maxOffset : PyVal
  offsetsString : String

/-- Body of the `report_topics` loop for one topic that passed the
filter. -/
def topic_row (decimal : Bool) (topic : PyVal) (details : PyVal) :
    Except PyErr TopicRowData := do
  let offsets ← pyIter details
  let maxOffset ← pyMaxList offsets
  let minOffset ← pyMinList offsets
  let fs ← offsets.mapM (format_number decimal)
  pure ⟨topic, offsets.length, minOffset, maxOffset, String.intercalate "," fs⟩

/-- One iteration of the `report_topics` loop: skip topics that fail the
filter, otherwise append the verbose or compact row. -/
def topics_build_step (compile : String → Regex) (ft : Option String)
    (decimal verbose : Bool) (details : PyVal → PyVal)
    (acc : List (List PyVal)) (topic : PyVal) :
    Except PyErr (List (List PyVal)) := do
  let m ← match_topic compile ft topic
  if !m then pure acc
  else do
    let rd ← topic_row decimal topic (details topic)
    if verbose then
      pure (acc ++ [[rd.topic, .int rd.partitions, .str rd.offsetsString]])
    else do
      let minS ← format_number decimal rd.minOffset
      let maxS ← format_number decimal rd.maxOffset
      pure (acc ++ [[rd.topic, .int rd.partitions, .str minS, .str maxS]])

/-- `BurrowClient.report_topics` as a row list: iterate the topic list
building rows, then sort by the `Topic` column as
`get_string(sortby='Topic')` does. -/
def report_topics_rows (compile : String → Regex) (ft : Option String)
    (decimal verbose : Bool) (topicsList : List PyVal)
    (details : PyVal → PyVal) : Except PyErr (List (List PyVal)) := do
  let rows ← topicsList.foldlM
    (topics_build_step compile ft decimal verbose details) []
  pySortByKey (fun row => row.headD .none) rows

/-- Body of the `report_consumers` loop for one consumer-detail entry
(one element of `consumer_details[topic]`), in source order: `owner` and
`current-lag` default to `'?'`, the per-offset `offset`/`timestamp`
fields default to 0, `max`/`min` run over those lists, and every numeric
cell goes through `format_number`. -/
def consumers_detail_row (decimal : Bool) (rdate rage : Int → String)
    (consumer topic : PyVal) (detail : PyVal) : Except PyErr (List PyVal) := do
  let owner ← pyGet detail "owner" (.str "?")
  let lag ← pyGet detail "current-lag" (.str "?")
  let offsetData ← pyGet detail "offsets" (.list [])
  let od ← pyIter offsetData
  let offsets ← od.mapM (fun o => pyGet o "offset" (.int 0))
  let timestamps ← od.mapM (fun o => pyGet o "timestamp" (.int 0))
  let maxOffset ← pyMaxList offsets
  let minOffset ← pyMinList offsets
  let maxTimestamp ← pyMaxList timestamps
  let lagS ← format_number decimal lag
  let minS ← format_number decimal minOffset
  let maxS ← format_number decimal maxOffset
  let tsS ← format_number decimal maxTimestamp
  let dateS ← timestamp_to_date rdate maxTimestamp
  let ageS ← timestamp_to_age rage maxTimestamp
  pure [consumer, topic, owner, .str lagS, .str minS, .str maxS, .str tsS,
    .str dateS, .str ageS]

/-- Accumulator of the partition loop in `report_consumer_status`. -/
structure StatusAcc where
  topics : List (PyVal × Nat)
  owners : List PyVal
  maxOffset : PyVal
  maxTimestamp : PyVal
deriving Repr

/-- The two `if offset/timestamp > running max` statements of the
partition loop. -/
def status_update_maxima (acc : StatusAcc) (st : PartitionStats) :
    Except PyErr StatusAcc := do
  let g1 ← pyGt st.offset acc.maxOffset
  let acc := if g1 then { acc with maxOffset := st.offset } else acc
  let g2 ← pyGt st.timestamp acc.maxTimestamp
  pure (if g2 then { acc with maxTimestamp := st.timestamp } else acc)

/-- The `if topic:` tally update of the partition loop (dictionary keys
must be hashable). -/
def status_update_topics (acc : StatusAcc) (st : PartitionStats) :
    Except PyErr StatusAcc :=
  if isTruthy st.topic then
    if pyHashable st.topic then
      pure { acc with topics := tallyAdd acc.topics st.topic }
    else throw PyErr.typeError
  else pure acc

/-- The `if owner: owners.add(owner)` statement of the partition loop
(set elements must be hashable). -/
def status_update_owners (acc : StatusAcc) (st : PartitionStats) :
    Except PyErr StatusAcc :=
  if isTruthy st.owner then
    if pyHashable st.owner then
      pure { acc with owners := setAdd acc.owners st.owner }
    else throw PyErr.typeError
  else pure acc

/-- One iteration of the partition loop of `report_consumer_status`:
normalize, filter by topic, then update running max offset, max
timestamp, the topic tally (truthy topics only) and the owner set
(truthy owners only), in source order. -/
def status_partition_step (compile : String → Regex) (ft : Option String)
    (acc : StatusAcc) (pd : PyVal) : Except PyErr StatusAcc := do
  let stats ← get_partition_stats pd
  let m ← match_topic compile ft stats.topic
  if !m then pure acc
  else do
    let acc ← status_update_maxima acc stats
    let acc ← status_update_topics acc stats
    status_update_owners acc stats

/-- The values `report_consumer_status` derives for one consumer before
any rendering. -/
structure StatusRowData where
  lag : PyVal
  status : PyVal
  totalLag : PyVal
  acc : StatusAcc

/-- The statements of the per-consumer derivation after the `lag`
computation: `status` and `totallag` defaults, then the partition
loop over `partitions` (default `[]`). -/
def consumer_status_data_rest (compile : String → Regex) (ft : Option String)
    (cs : PyVal) (lag : PyVal) : Except PyErr StatusRowData := do
  let status ← pyGet cs "status" (.str "?")
  let totalLag ← pyGet cs "totallag" (.int 0)
  let partitionsV ← pyGet cs "partitions" (.list [])
  let parts ← pyIter partitionsV
  let acc ← parts.foldlM (status_partition_step compile ft)
    ⟨[], [], .int 0, .int 0⟩
  pure ⟨lag, status, totalLag, acc⟩

/-- The per-consumer derivation of `report_consumer_status`, in source
order: `lag` is the normalized lag of the `maxlag` record when that key
is present with a truthy value (the stats dict always carries a `lag`
key, so its `.get('lag', 0)` is exactly the normalized lag) and 0
otherwise, followed by the rest of the derivation. -/
def consumer_status_data (compile : String → Regex) (ft : Option String)
    (cs : PyVal) : Except PyErr StatusRowData := do
  let hasMax ← pyIn "maxlag" cs
  let lag ←
    if hasMax then do
      let ml ← pyIndex cs "maxlag"
      if isTruthy ml then do
        let stats ← get_partition_stats ml
        pure stats.lag
      else pure (PyVal.int 0)
    else pure (PyVal.int 0)
  consumer_status_data_rest compile ft cs lag

/-- The verbose-mode `Owners` and `Topics` strings of
`report_consumer_status`: sorted comma-joined owner set, and the tally
items sorted by key rendered as `name[count]`. -/
def owners_topics_strings (acc : StatusAcc) : Except PyErr (String × String) := do
  let sortedOwners ← pySorted acc.owners
  let ownersString ← pyJoin "," sortedOwners
  let sortedTopics ← pySortByKey Prod.fst acc.topics
  let topicsStrings ← sortedTopics.mapM (fun kv => do
    let ks ← pyStrScalar kv.1
    pure (ks ++ "[" ++ Nat.repr kv.2 ++ "]"))
  pure (ownersString, String.intercalate "," topicsStrings)

/-- One full row of `report_consumer_status` for one consumer; in
verbose mode the `Owners`/`Topics` strings are built before the cell
formatting, as in the source. -/
def report_consumer_status_row (compile : String → Regex) (ft : Option String)
    (decimal verbose : Bool) (rdate rage : Int → String) (consumer : PyVal)
    (cs : PyVal) : Except PyErr (List PyVal) := do
  let d ← consumer_status_data compile ft cs
  if verbose then do
    let (ownersS, topicsS) ← owners_topics_strings d.acc
    let lagS ← format_number decimal d.lag
    let totalS ← format_number decimal d.totalLag
    let offS ← format_number decimal d.acc.maxOffset
    let tsS ← format_number decimal d.acc.maxTimestamp
    let dateS ← timestamp_to_date rdate d.acc.maxTimestamp
    let ageS ← timestamp_to_age rage d.acc.maxTimestamp
    pure [consumer, d.status, .str lagS, .str totalS, .str offS, .str tsS,
      .str dateS, .str ageS, .str ownersS, .str topicsS]
  else do
    let lagS ← format_number decimal d.lag
    let totalS ← format_number decimal d.totalLag
    let offS ← format_number decimal d.acc.maxOffset
    let tsS ← format_number decimal d.acc.maxTimestamp
    let dateS ← timestamp_to_date rdate d.acc.maxTimestamp
    let ageS ← timestamp_to_age rage d.acc.maxTimestamp
    pure [consumer, d.status, .str lagS, .str totalS, .str offS, .str tsS,
      .str dateS, .str ageS]

/-! ## Spec-side helpers for the aggregator claims -/

/-- The boolean value of `match_topic`/`match_consumer` on a plain
string value (on strings the filter never raises). -/
def matchTopicB (compile : String → Regex) (ft : Option String)
    (t : String) : Bool :=
  if !(optTruthy ft) then true
  else if t.isEmpty then false
  else re_match (compile (ft.getD "")) t

/-- Does a (topic) value pass the filter?  False on non-strings (on
which the filter would raise for truthy filters; the claims only apply
it to string topics). -/
def topicPassB (compile : String → Regex) (ft : Option String)
    (v : PyVal) : Bool :=
  match v with
  | .str s => matchTopicB compile ft s
  | _ => false

/-- The integers of a value list, in order. -/
def intsOf (xs : List PyVal) : List Int :=
  xs.filterMap (fun v => match v with | .int n => some n | _ => Option.none)

/-- Minimum of an integer list (`0` for `[]`, never used there). -/
def intMin : List Int → Int
  | [] => 0
  | n :: ns => ns.foldl min n

/-- Maximum of an integer list (`0` for `[]`, never used there). -/
def intMax : List Int → Int
  | [] => 0
  | n :: ns => ns.foldl max n

/-- The compact topic-summary row as the spec describes it: topic,
partition count = number of offset entries, formatted min and max taken
over the raw offset list. -/
def specTopicRow (decimal : Bool) (details : PyVal → PyVal) (t : PyVal) :
    List PyVal :=
  match details t with
  | .list offs =>
    [t, .int offs.length, .str (formatInt decimal (intMin (intsOf offs))),
     .str (formatInt decimal (intMax (intsOf offs)))]
  | _ => []

/-- Sort-order relation induced by a `PyVal` key that is a string. -/
def keyLE {α : Type} (key : α → PyVal) (a b : α) : Prop :=
  ∀ sa sb, key a = .str sa → key b = .str sb → sa ≤ sb

/-! ## Facts about comma grouping (for the `format_number` claim) -/

/-- Chunks of three, walking a (reversed) digit list least-significant
first; the final chunk holds the one to three leading digits. -/
def chunkRev : List Char → List (List Char)
  | a :: b :: c :: d :: rest => [a, b, c] :: chunkRev (d :: rest)
  | l => [l]

theorem intercalate_nil (s : List α) : List.intercalate s ([] : List (List α)) = [] := rfl

theorem intercalate_single (s x : List α) : List.intercalate s [x] = x := by
  simp [List.intercalate]

theorem intercalate_cons₂ (s x y : List α) (t : List (List α)) :
    List.intercalate s (x :: y :: t) = x ++ s ++ List.intercalate s (y :: t) := by
  simp [List.intercalate, List.intersperse_cons_cons, List.append_assoc]

theorem intercalate_append_single (s : List α) (A : List (List α)) (b : List α)
    (hA : A ≠ []) :
    List.intercalate s (A ++ [b]) = List.intercalate s A ++ s ++ b := by
  induction A with
  | nil => exact absurd rfl hA
  | cons x A ih =>
    cases A with
    | nil => simp [intercalate_cons₂, intercalate_single]
    | cons y t =>
      have ih' := ih (by simp)
      rw [List.cons_append] at ih'
      rw [List.cons_append, List.cons_append, intercalate_cons₂, ih',
        intercalate_cons₂]
      simp [List.append_assoc]

theorem chunkRev_ne_nil (l : List Char) : chunkRev l ≠ [] := by
  induction l using chunkRev.induct with
  | case1 a b c d rest ih => simp [chunkRev]
  | case2 l h =>
    rcases l with _ | ⟨a, _ | ⟨b, _ | ⟨c, _ | ⟨d, rest⟩⟩⟩⟩
    · simp [chunkRev]
    · simp [chunkRev]
    · simp [chunkRev]
    · simp [chunkRev]
    · exact absurd rfl (fun hh => h a b c d rest hh)

theorem insertCommas_eq (l : List Char) :
    insertCommas l = List.intercalate [','] (chunkRev l) := by
  induction l using chunkRev.induct with
  | case1 a b c d rest ih =>
    rw [insertCommas, chunkRev]
    rcases h : chunkRev (d :: rest) with _ | ⟨g, gs⟩
    · exact absurd h (chunkRev_ne_nil _)
    · rw [intercalate_cons₂, ih, h]; rfl
  | case2 l h =>
    rcases l with _ | ⟨a, _ | ⟨b, _ | ⟨c, _ | ⟨d, rest⟩⟩⟩⟩
    · rfl
    · simp [insertCommas, chunkRev, intercalate_single]
    · simp [insertCommas, chunkRev, intercalate_single]
    · simp [insertCommas, chunkRev, intercalate_single]
    · exact absurd rfl (fun hh => h a b c d rest hh)

theorem chunkRev_flatten (l : List Char) : (chunkRev l).flatten = l := by
  induction l using chunkRev.induct with
  | case1 a b c d rest ih => simp [chunkRev, ih]
  | case2 l h =>
    rcases l with _ | ⟨a, _ | ⟨b, _ | ⟨c, _ | ⟨d, rest⟩⟩⟩⟩
    · rfl
    · rfl
    · rfl
    · rfl
    · exact absurd rfl (fun hh => h a b c d rest hh)

theorem chunkRev_len_le (l : List Char) : ∀ g ∈ chunkRev l, g.length ≤ 3 := by
  induction l using chunkRev.induct with
  | case1 a b c d rest ih =>
    intro g hg
    rw [chunkRev, List.mem_cons] at hg
    rcases hg with hg | hg
    · simp [hg]
    · exact ih g hg
  | case2 l h =>
    intro g hg
    rcases l with _ | ⟨a, _ | ⟨b, _ | ⟨c, _ | ⟨d, rest⟩⟩⟩⟩
    · simp [chunkRev] at hg; simp [hg]
    · simp [chunkRev] at hg; simp [hg]
    · simp [chunkRev] at hg; simp [hg]
    · simp [chunkRev] at hg; simp [hg]
    · exact absurd rfl (fun hh => h a b c d rest hh)

theorem chunkRev_ne_nil_mem (l : List Char) (hl : l ≠ []) :
    ∀ g ∈ chunkRev l, g ≠ [] := by
  induction l using chunkRev.induct with
  | case1 a b c d rest ih =>
    intro g hg
    rw [chunkRev, List.mem_cons] at hg
    rcases hg with hg | hg
    · simp [hg]
    · exact ih (by simp) g hg
  | case2 l h =>
    intro g hg
    rcases l with _ | ⟨a, _ | ⟨b, _ | ⟨c, _ | ⟨d, rest⟩⟩⟩⟩
    · exact absurd rfl hl
    · simp [chunkRev] at hg; simp [hg]
    · simp [chunkRev] at hg; simp [hg]
    · simp [chunkRev] at hg; simp [hg]
    · exact absurd rfl (fun hh => h a b c d rest hh)

theorem chunkRev_dropLast_three (l : List Char) :
    ∀ g ∈ (chunkRev l).dropLast, g.length = 3 := by
  induction l using chunkRev.induct with
  | case1 a b c d rest ih =>
    intro g hg
    rw [chunkRev] at hg
    rcases hc : chunkRev (d :: rest) with _ | ⟨g', gs'⟩
    · exact absurd hc (chunkRev_ne_nil _)
    · rw [hc, List.dropLast_cons_of_ne_nil (by simp), List.mem_cons] at hg
      rcases hg with hg | hg
      · simp [hg]
      · exact ih g (by rw [hc]; exact hg)
  | case2 l h =>
    intro g hg
    rcases l with _ | ⟨a, _ | ⟨b, _ | ⟨c, _ | ⟨d, rest⟩⟩⟩⟩
    · simp [chunkRev] at hg
    · simp [chunkRev] at hg
    · simp [chunkRev] at hg
    · simp [chunkRev] at hg
    · exact absurd rfl (fun hh => h a b c d rest hh)

theorem rev_intercalate (c : Char) (L : List (List Char)) :
    (List.intercalate [c] L).reverse =
      List.intercalate [c] ((L.map List.reverse).reverse) := by
  induction L with
  | nil => rfl
  | cons x L ih =>
    cases L with
    | nil => simp [intercalate_single]
    | cons y t =>
      rw [intercalate_cons₂]
      have hne : ((y :: t).map List.reverse).reverse ≠ [] := by simp
      calc (x ++ [c] ++ List.intercalate [c] (y :: t)).reverse
          = (List.intercalate [c] (y :: t)).reverse ++ [c] ++ x.reverse := by
            simp [List.reverse_append, List.append_assoc]
        _ = List.intercalate [c] (((y :: t).map List.reverse).reverse)
              ++ [c] ++ x.reverse := by rw [ih]
        _ = List.intercalate [c] ((((y :: t).map List.reverse).reverse)
              ++ [x.reverse]) := by
            rw [intercalate_append_single _ _ _ hne]
        _ = List.intercalate [c] (((x :: y :: t).map List.reverse).reverse) := by
            simp

theorem toDigitsCore_length (b : Nat) :
    ∀ (fuel n : Nat) (acc : List Char),
      acc.length ≤ (Nat.toDigitsCore b fuel n acc).length ∧
      (fuel ≠ 0 → acc.length < (Nat.toDigitsCore b fuel n acc).length) := by
  intro fuel
  induction fuel with
  | zero => intro n acc; exact ⟨Nat.le_refl _, fun h => absurd rfl h⟩
  | succ fuel ih =>
    intro n acc
    rw [Nat.toDigitsCore]
    by_cases h : n / b = 0
    · simp [h]
    · simp only [h, if_neg]
      have := ih (n / b) (Nat.digitChar (n % b) :: acc)
      refine ⟨Nat.le_trans (Nat.le_succ _) this.1, fun _ => ?_⟩
      exact Nat.lt_of_lt_of_le (Nat.lt_succ_self _) this.1

theorem natRepr_data_ne_nil (n : Nat) : (Nat.repr n).data ≠ [] := by
  show Nat.toDigits 10 n ≠ []
  rw [Nat.toDigits]
  intro h
  have := (toDigitsCore_length 10 (n + 1) n []).2 (Nat.succ_ne_zero n)
  rw [h] at this
  exact Nat.lt_irrefl 0 this

/-- C8: for every integer, `format_number` renders the plain decimal
string when the decimal display mode is off, and a comma-grouped
thousands string when it is on: the output is the (optional) sign
followed by digit groups joined by `','`, where the groups concatenate
to the plain digit string of the absolute value, every group has one to
three digits, and every group after the first has exactly three.  At
1234567 the two modes give `"1,234,567"` and `"1234567"`. -/
theorem format_number_spec (n : Int) :
    format_number false (.int n) = .ok (Int.repr n) ∧
    (∃ gs : List (List Char),
      format_number true (.int n) =
        .ok ((if n < 0 then "-" else "") ++
          String.mk (List.intercalate [','] gs)) ∧
      gs.flatten = (Nat.repr n.natAbs).data ∧
      gs ≠ [] ∧
      (∀ g ∈ gs, 1 ≤ g.length ∧ g.length ≤ 3) ∧
      (∀ g ∈ gs.tail, g.length = 3)) ∧
    format_number true (.int 1234567) = .ok "1,234,567" ∧
    format_number false (.int 1234567) = .ok "1234567" := by
  refine ⟨rfl, ?_, rfl, rfl⟩
  set ds : List Char := (Nat.repr n.natAbs).data with hds
  have hdsne : ds ≠ [] := natRepr_data_ne_nil _
  set C : List (List Char) := chunkRev ds.reverse with hC
  refine ⟨(C.map List.reverse).reverse, ?_, ?_, ?_, ?_, ?_⟩
  · show Except.ok (commaFormat n) = _
    rw [commaFormat]
    rw [insertCommas_eq, rev_intercalate]
  · rw [List.flatten_reverse]
    simp only [List.map_map]
    have : (List.reverse ∘ List.reverse) = (id : List Char → List Char) := by
      funext l; simp
    rw [this, List.map_id, hC, chunkRev_flatten, List.reverse_reverse]
  · simp [chunkRev_ne_nil ds.reverse]
  · intro g hg
    rw [List.mem_reverse, List.mem_map] at hg
    obtain ⟨g₀, hg₀, rfl⟩ := hg
    have h3 := chunkRev_len_le ds.reverse g₀ hg₀
    have hne := chunkRev_ne_nil_mem ds.reverse (by simp [hdsne]) g₀ hg₀
    constructor
    · rw [List.length_reverse]
      rcases g₀ with _ | ⟨x, t⟩
      · exact absurd rfl hne
      · simp
    · rw [List.length_reverse]; exact h3
  · intro g hg
    set M : List (List Char) := C.map List.reverse with hM
    have hMne : M ≠ [] := by simp [hM, chunkRev_ne_nil ds.reverse]
    have hsplit : M = M.dropLast ++ [M.getLast hMne] :=
      (List.dropLast_append_getLast hMne).symm
    have : M.reverse = M.getLast hMne :: M.dropLast.reverse := by
      conv_lhs => rw [hsplit]
      rw [List.reverse_concat]
    rw [this] at hg
    simp only [List.tail_cons] at hg
    rw [List.mem_reverse] at hg
    rw [hM, ← List.map_dropLast, List.mem_map] at hg
    obtain ⟨g₀, hg₀, rfl⟩ := hg
    rw [List.length_reverse]
    exact chunkRev_dropLast_three ds.reverse g₀ hg₀

/-- Witness for `format_number_spec` at a concrete input. -/
theorem format_number_spec_witness :
    format_number false (.int 42) = .ok (Int.repr 42) :=
  (format_number_spec 42).1

/-- C2 (counterexample): on a raw partition object whose `current_lag`
is null, `get_partition_stats` does **not** substitute 0 — Python's
`dict.get(key, 0)` only applies the default when the key is absent, so
the normalized `lag` is null (`None`), not `0`. -/
theorem get_partition_stats_null_lag_cex :
    get_partition_stats
        (.dict [("current_lag", PyVal.none), ("end", .dict [("lag", .int 7)])]) =
      .ok { topic := .str "?", lag := PyVal.none, offset := .int 0,
            timestamp := .int 0, status := .str "?", owner := .str "?",
            partition := .str "?" } ∧
    PyVal.none ≠ PyVal.int 0 :=
  ⟨rfl, fun h => PyVal.noConfusion h⟩

/-- C2 (amended): `get_partition_stats` sets `lag` to the stored
`current_lag` value whenever the key is present — even when that value
is null, which is passed through unchanged — thereby preferring it over
`end.lag`; when the key is absent, `lag` is `end.lag` with default 0. -/
theorem get_partition_stats_lag_amended (kvs : List (String × PyVal)) :
    ∃ st, get_partition_stats (.dict kvs) = .ok st ∧
      (∀ v, dictLookup kvs "current_lag" = some v → st.lag = v) ∧
      (dictLookup kvs "current_lag" = Option.none →
        st.lag = (dictLookup (endFieldOf kvs) "lag").getD (.int 0)) := by
  refine ⟨get_partition_stats_dict kvs, rfl, ?_, ?_⟩
  · intro v hv
    simp [get_partition_stats_dict, hv]
  · intro h
    simp [get_partition_stats_dict, h]

/-- Witness for `get_partition_stats_lag_amended`: with both
`current_lag = 5` and `end.lag = 7` present, the normalized lag is 5. -/
theorem get_partition_stats_lag_amended_witness :
    ∃ st, get_partition_stats
        (.dict [("current_lag", PyVal.int 5),
                ("end", PyVal.dict [("lag", PyVal.int 7)])]) = .ok st ∧
      st.lag = .int 5 := by
  obtain ⟨st, h1, h2, _⟩ := get_partition_stats_lag_amended
    [("current_lag", PyVal.int 5), ("end", PyVal.dict [("lag", PyVal.int 7)])]
  exact ⟨st, h1, h2 (.int 5) rfl⟩

/-- C3: `timestamp_to_date` / `timestamp_to_age` do **not** degrade to
`"?"` on invalid input — their `except` clauses catch only
`RuntimeError`, while `int('abc')` raises `ValueError` and `int(None)`
raises `TypeError`, both of which escape.  (The functions' own
docstrings promise `"?"` on error, so the code contradicts its
documentation.) -/
theorem timestamp_invalid_raises :
    ∀ render₁ render₂ : Int → String,
      timestamp_to_date render₁ (.str "abc") = .error .valueError ∧
      timestamp_to_age render₂ (.str "abc") = .error .valueError ∧
      timestamp_to_date render₁ PyVal.none = .error .typeError ∧
      timestamp_to_age render₂ PyVal.none = .error .typeError :=
  fun _ _ => ⟨rfl, rfl, rfl, rfl⟩

/-- C4: a consumer-detail entry with missing fields makes
`report_consumers` raise instead of substituting defaults: an entry
with no `offsets` list reaches `max([])`, which raises `ValueError`,
and an entry with offsets but no `current-lag` key defaults the lag to
`'?'`, which `format_number`'s `int('?')` rejects with `ValueError`. -/
theorem report_consumers_missing_fields_raise :
    ∀ rdate rage : Int → String,
      consumers_detail_row false rdate rage (.str "group1") (.str "TopicX")
        (.dict []) = .error .valueError ∧
      consumers_detail_row false rdate rage (.str "group1") (.str "TopicX")
        (.dict [("offsets", .list [.dict [("offset", .int 2526),
          ("timestamp", .int 1511200836090)]])]) = .error .valueError :=
  fun _ _ => ⟨rfl, rfl⟩

/-- C9: an empty-string filter pattern is falsy in Python, so
`match_topic` / `match_consumer` treat it exactly like no filter and
accept every value — including empty and absent ones. -/
theorem match_empty_pattern_no_filter :
    ∀ (compile : String → Regex) (v : PyVal),
      match_topic compile (some "") v = .ok true ∧
      match_consumer compile (some "") v = .ok true :=
  fun _ _ => ⟨rfl, rfl⟩

theorem matchesPrefixAux_iff :
    ∀ (cs : List Char) (r : Regex),
      matchesPrefixAux r cs = true ↔
        ∃ pre suf, pre ++ suf = cs ∧ fullMatch r pre = true := by
  intro cs
  induction cs with
  | nil =>
    intro r
    constructor
    · intro h; exact ⟨[], [], rfl, h⟩
    · rintro ⟨pre, suf, heq, hm⟩
      rcases List.append_eq_nil.mp heq with ⟨rfl, rfl⟩
      exact hm
  | cons c rest ih =>
    intro r
    rw [matchesPrefixAux, Bool.or_eq_true]
    constructor
    · rintro (h | h)
      · exact ⟨[], c :: rest, rfl, h⟩
      · obtain ⟨pre', suf, heq, hm⟩ := (ih (deriv r c)).mp h
        exact ⟨c :: pre', suf, by rw [List.cons_append, heq], hm⟩
    · rintro ⟨pre, suf, heq, hm⟩
      rcases pre with _ | ⟨c', pre'⟩
      · left; rw [List.nil_append] at heq; subst heq; exact hm
      · right
        rw [List.cons_append] at heq
        injection heq with hc htail
        rw [← hc]
        exact (ih (deriv r c')).mpr ⟨pre', suf, htail, hm⟩

/-- C5: filter semantics of `match_topic` / `match_consumer`: a falsy
(unset) pattern always accepts; a truthy pattern rejects absent and
empty values; otherwise the result is true exactly when the compiled
pattern fully matches some prefix of the value (prefix-anchored, not
full-string — witnessed concretely by pattern `'a'` against `"ab"`,
which passes `re.match` but is not a full match). -/
theorem match_filter_semantics :
    ∀ (compile : String → Regex) (p : Option String) (v : PyVal) (s : String),
      (optTruthy p = false →
        match_topic compile p v = .ok true ∧
        match_consumer compile p v = .ok true) ∧
      (optTruthy p = true →
        match_topic compile p PyVal.none = .ok false ∧
        match_topic compile p (.str "") = .ok false ∧
        match_consumer compile p PyVal.none = .ok false ∧
        match_consumer compile p (.str "") = .ok false) ∧
      (optTruthy p = true → s ≠ "" →
        (match_topic compile p (.str s) = .ok true ↔
          ∃ pre suf, pre ++ suf = s.data ∧
            fullMatch (compile (p.getD "")) pre = true) ∧
        (match_consumer compile p (.str s) = .ok true ↔
          ∃ pre suf, pre ++ suf = s.data ∧
            fullMatch (compile (p.getD "")) pre = true)) ∧
      (match_topic (fun _ => Regex.char 'a') (some "a") (.str "ab") = .ok true ∧
        fullMatch (Regex.char 'a') "ab".data = false) := by
  intro compile p v s
  refine ⟨?_, ?_, ?_, rfl, rfl⟩
  · intro h
    constructor <;> simp [match_topic, match_consumer, h]
  · intro h
    have h0 : "".isEmpty = true := rfl
    refine ⟨?_, ?_, ?_, ?_⟩ <;>
      simp [match_topic, match_consumer, h, isTruthy, h0]
  · intro h hs
    have hemp : s.isEmpty = false := by
      rcases hi : s.isEmpty with _ | _
      · rfl
      · exact absurd ((String.isEmpty_iff s).mp hi) hs
    have htru : isTruthy (.str s) = true := by simp [isTruthy, hemp]
    constructor
    · rw [match_topic]
      simp only [h, htru, Bool.not_true, Bool.false_eq_true, if_false,
        Bool.not_false, if_true]
      constructor
      · intro he
        injection he with hb
        exact (matchesPrefixAux_iff s.data _).mp hb
      · intro hex
        have hb := (matchesPrefixAux_iff s.data (compile (p.getD ""))).mpr hex
        exact congrArg Except.ok hb
    · rw [match_consumer]
      simp only [h, htru, Bool.not_true, Bool.false_eq_true, if_false,
        Bool.not_false, if_true]
      constructor
      · intro he
        injection he with hb
        exact (matchesPrefixAux_iff s.data _).mp hb
      · intro hex
        have hb := (matchesPrefixAux_iff s.data (compile (p.getD ""))).mpr hex
        exact congrArg Except.ok hb

/-- Witness for `match_filter_semantics`: pattern `"a"` (compiled to the
single-character regex) against the value `"ab"`. -/
theorem match_filter_semantics_witness :
    match_topic (fun _ => Regex.char 'a') (some "a") (.str "ab") = .ok true ↔
      ∃ pre suf, pre ++ suf = "ab".data ∧
        fullMatch ((fun _ : String => Regex.char 'a') ((some "a").getD ""))
          pre = true :=
  ((match_filter_semantics (fun _ => Regex.char 'a') (some "a") PyVal.none
    "ab").2.2.1 rfl (by decide)).1

/-! ## Cache lemmas (for C1) -/

theorem cachedFetch_hit (extract : PyVal → Except PyErr PyVal)
    (cache : List (String × PyVal)) (key : String) (resp v : PyVal)
    (h : dictLookup cache key = some v) :
    cachedFetch extract cache key resp = .ok (v, cache, false) := by
  rw [cachedFetch, h]

theorem cachedFetch_store (extract : PyVal → Except PyErr PyVal)
    (cache : List (String × PyVal)) (key : String) (resp v : PyVal)
    (hmiss : dictLookup cache key = Option.none)
    (hex : extract resp = .ok v) (ht : isTruthy v = true) :
    cachedFetch extract cache key resp = .ok (v, (key, v) :: cache, true) := by
  rw [cachedFetch]
  simp only [hmiss, hex, ht, if_true]

theorem cachedFetch_nostore (extract : PyVal → Except PyErr PyVal)
    (cache : List (String × PyVal)) (key : String) (resp v : PyVal)
    (hmiss : dictLookup cache key = Option.none)
    (hex : extract resp = .ok v) (ht : isTruthy v = false) :
    cachedFetch extract cache key resp = .ok (v, cache, true) := by
  rw [cachedFetch]
  simp only [hmiss, hex, ht, Bool.false_eq_true, if_false]

theorem cachedFetch_mono (extract : PyVal → Except PyErr PyVal)
    (cache : List (String × PyVal)) (key : String) (resp : PyVal)
    (k : String) (v : PyVal) (out : PyVal × List (String × PyVal) × Bool)
    (hk : dictLookup cache k = some v)
    (h : cachedFetch extract cache key resp = .ok out) :
    dictLookup out.2.1 k = some v := by
  rw [cachedFetch] at h
  cases hkey : dictLookup cache key with
  | some w =>
    simp only [hkey] at h
    injection h with h'
    rw [← h']
    exact hk
  | none =>
    simp only [hkey] at h
    cases hex : extract resp with
    | error e => simp only [hex] at h; exact Except.noConfusion h
    | ok w =>
      simp only [hex] at h
      by_cases ht : isTruthy w = true
      · simp only [ht, if_true] at h
        injection h with h'
        rw [← h']
        show dictLookup ((key, w) :: cache) k = some v
        rw [dictLookup]
        have hne : key ≠ k := by
          intro hkk
          rw [hkk, hk] at hkey
          exact Option.noConfusion hkey
        rw [if_neg hne]
        exact hk
      · rw [Bool.not_eq_true] at ht
        simp only [ht, Bool.false_eq_true, if_false] at h
        injection h with h'
        rw [← h']
        exact hk

theorem runCalls_no_refetch (extract : PyVal → Except PyErr PyVal)
    (k : String) (v : PyVal) :
    ∀ (calls : List (String × PyVal)) (cache : List (String × PyVal))
      (log : List (String × Bool)),
      dictLookup cache k = some v →
      runCalls extract cache calls = .ok log →
      countReqs k log = 0 := by
  intro calls
  induction calls with
  | nil =>
    intro cache log _ h
    injection h with h'
    rw [← h']
    rfl
  | cons c rest ih =>
    intro cache log hk h
    obtain ⟨k', r⟩ := c
    rw [runCalls] at h
    cases hcf : cachedFetch extract cache k' r with
    | error e => simp only [hcf] at h; exact Except.noConfusion h
    | ok out =>
      obtain ⟨w, c2, req⟩ := out
      simp only [hcf] at h
      cases hrun : runCalls extract c2 rest with
      | error e => simp only [hrun] at h; exact Except.noConfusion h
      | ok tail =>
        simp only [hrun] at h
        injection h with h'
        rw [← h']
        have htail : countReqs k tail = 0 :=
          ih c2 tail (cachedFetch_mono extract cache k' r k v (w, c2, req) hk hcf) hrun
        by_cases hkk : k' = k
        · have hhit : cachedFetch extract cache k' r = .ok (v, cache, false) :=
            cachedFetch_hit extract cache k' r v (by rw [hkk]; exact hk)
          rw [hhit] at hcf
          injection hcf with hcf'
          have hreq : req = false := (congrArg (fun t => t.2.2) hcf').symm
          simp only [countReqs, List.filter, hreq, Bool.and_false] at *
          exact htail
        · have hbeq : (k' == k) = false := beq_eq_false_iff_ne.mpr hkk
          simp only [countReqs, List.filter, hbeq, Bool.false_and] at *
          exact htail

theorem runCalls_at_most_once (extract : PyVal → Except PyErr PyVal)
    (k : String) :
    ∀ (calls : List (String × PyVal)) (cache : List (String × PyVal))
      (log : List (String × Bool)),
      (∀ c ∈ calls, ∃ w, extract c.2 = .ok w ∧ isTruthy w = true) →
      runCalls extract cache calls = .ok log →
      countReqs k log ≤ 1 := by
  intro calls
  induction calls with
  | nil =>
    intro cache log _ h
    injection h with h'
    rw [← h']
    exact Nat.zero_le 1
  | cons c rest ih =>
    intro cache log hall h
    obtain ⟨k', r⟩ := c
    rw [runCalls] at h
    cases hcf : cachedFetch extract cache k' r with
    | error e => simp only [hcf] at h; exact Except.noConfusion h
    | ok out =>
      obtain ⟨w, c2, req⟩ := out
      simp only [hcf] at h
      cases hrun : runCalls extract c2 rest with
      | error e => simp only [hrun] at h; exact Except.noConfusion h
      | ok tail =>
        simp only [hrun] at h
        injection h with h'
        rw [← h']
        have hrest : ∀ c ∈ rest, ∃ w, extract c.2 = .ok w ∧ isTruthy w = true :=
          fun c hc => hall c (List.mem_cons_of_mem _ hc)
        cases hkey : dictLookup cache k' with
        | some w0 =>
          have heq : cachedFetch extract cache k' r = .ok (w0, cache, false) :=
            cachedFetch_hit extract cache k' r w0 hkey
          rw [heq] at hcf
          injection hcf with hcf'
          have hreq : req = false := (congrArg (fun t => t.2.2) hcf').symm
          have hle := ih c2 tail hrest hrun
          simp only [countReqs, List.filter, hreq, Bool.and_false] at *
          exact hle
        | none =>
          obtain ⟨v', hex, ht⟩ := hall (k', r) (List.mem_cons_self _ _)
          have heq : cachedFetch extract cache k' r =
              .ok (v', (k', v') :: cache, true) :=
            cachedFetch_store extract cache k' r v' hkey hex ht
          rw [heq] at hcf
          injection hcf with hcf'
          have hc2 : c2 = (k', v') :: cache :=
            (congrArg (fun t => t.2.1) hcf').symm
          have hreq : req = true := (congrArg (fun t => t.2.2) hcf').symm
          by_cases hkk : k' = k
          · have htail : countReqs k tail = 0 := by
              refine runCalls_no_refetch extract k v' rest c2 tail ?_ hrun
              rw [hc2, ← hkk, dictLookup, if_pos rfl]
            have hbeq : (k' == k) = true := beq_iff_eq.mpr hkk
            simp only [countReqs, List.filter, hreq, hbeq, Bool.and_true,
              Bool.true_and] at *
            simp only [List.length_cons]
            omega
          · have hbeq : (k' == k) = false := beq_eq_false_iff_ne.mpr hkk
            have hle := ih c2 tail hrest hrun
            simp only [countReqs, List.filter, hbeq, Bool.false_and] at *
            exact hle

theorem runCalls_empty_refetch (extract : PyVal → Except PyErr PyVal) :
    ∀ (calls : List (String × PyVal)) (log : List (String × Bool)),
      (∀ c ∈ calls, ∃ w, extract c.2 = .ok w ∧ isTruthy w = false) →
      runCalls extract [] calls = .ok log →
      ∀ e ∈ log, e.2 = true := by
  intro calls
  induction calls with
  | nil =>
    intro log _ h e he
    injection h with h'
    rw [← h'] at he
    exact absurd he (List.not_mem_nil e)
  | cons c rest ih =>
    intro log hall h e he
    obtain ⟨k', r⟩ := c
    obtain ⟨v', hex, ht⟩ := hall (k', r) (List.mem_cons_self _ _)
    rw [runCalls] at h
    have heq : cachedFetch extract [] k' r = .ok (v', [], true) :=
      cachedFetch_nostore extract [] k' r v' rfl hex ht
    simp only [heq] at h
    cases hrun : runCalls extract [] rest with
    | error e0 => simp only [hrun] at h; exact Except.noConfusion h
    | ok tail =>
      simp only [hrun] at h
      injection h with h'
      rw [← h'] at he
      rcases List.mem_cons.mp he with he | he
      · rw [he]
      · exact ih tail (fun c hc => hall c (List.mem_cons_of_mem _ hc)) hrun e he

/-- C1: cache behavior of the accessors.  On a generic keyed accessor
(`cachedFetch`, instantiated by all six keyed accessors below): a call
that extracts a truthy payload stores it, and every later call with the
same key returns the stored value without invoking `request`; a falsy
payload is not stored and the next call with the same key invokes
`request` again.  At trace level, with truthy payloads throughout, at
most one `request` happens per distinct key, while with falsy payloads
every call re-requests.  The `clusters` property behaves the same way on
its single slot, and each named accessor is an instance of the generic
shape (with its envelope field and key format). -/
theorem cache_at_most_once :
    ∀ (extract : PyVal → Except PyErr PyVal) (cache : List (String × PyVal))
      (key : String) (resp resp2 : PyVal) (v : PyVal),
      (dictLookup cache key = Option.none → extract resp = .ok v →
        isTruthy v = true →
        cachedFetch extract cache key resp = .ok (v, (key, v) :: cache, true) ∧
        cachedFetch extract ((key, v) :: cache) key resp2 =
          .ok (v, (key, v) :: cache, false)) ∧
      (dictLookup cache key = Option.none → extract resp = .ok v →
        isTruthy v = false →
        cachedFetch extract cache key resp = .ok (v, cache, true) ∧
        ∀ out, cachedFetch extract cache key resp2 = .ok out →
          out.2.2 = true) ∧
      (∀ calls log,
        (∀ c ∈ calls, ∃ w, extract c.2 = .ok w ∧ isTruthy w = true) →
        runCalls extract cache calls = .ok log → countReqs key log ≤ 1) ∧
      (∀ calls log,
        (∀ c ∈ calls, ∃ w, extract c.2 = .ok w ∧ isTruthy w = false) →
        runCalls extract [] calls = .ok log → ∀ e ∈ log, e.2 = true) ∧
      (isTruthy v = true → clustersFetch v resp2 = .ok (v, v, false)) ∧
      (∀ cl, isTruthy v = false → pyGet resp "clusters" (.list []) = .ok cl →
        (isTruthy cl = true → clustersFetch v resp = .ok (cl, cl, true)) ∧
        (isTruthy cl = false → clustersFetch v resp = .ok (cl, v, true))) ∧
      (cluster_details_fetch cache key resp =
        cachedFetch (fun d => pyGet d "module" (.dict [])) cache key resp) ∧
      (topics_fetch cache key resp =
        cachedFetch (fun d => pyGet d "topics" (.list [])) cache key resp) ∧
      (consumers_fetch cache key resp =
        cachedFetch (fun d => pyGet d "consumers" (.list [])) cache key resp) ∧
      (∀ c t, topic_details_fetch cache c t resp =
        cachedFetch (fun d => pyGet d "offsets" (.list []))
          cache (c ++ "-" ++ t) resp) ∧
      (∀ c co, consumer_details_fetch cache c co resp =
        cachedFetch (fun d => pyGet d "topics" (.dict {}))
          cache (c ++ "-" ++ co) resp) ∧
      (∀ c co, consumer_status_fetch cache c co resp =
        cachedFetch (fun d => pyGet d "status" (.dict {}))
          cache (c ++ "-" ++ co) resp) := by
  intro extract cache key resp resp2 v
  refine ⟨?_, ?_, ?_, ?_, ?_, ?_, rfl, rfl, rfl, fun _ _ => rfl,
    fun _ _ => rfl, fun _ _ => rfl⟩
  · intro hmiss hex ht
    refine ⟨cachedFetch_store extract cache key resp v hmiss hex ht, ?_⟩
    refine cachedFetch_hit extract _ key resp2 v ?_
    rw [dictLookup, if_pos rfl]
  · intro hmiss hex ht
    refine ⟨cachedFetch_nostore extract cache key resp v hmiss hex ht, ?_⟩
    intro out hout
    rw [cachedFetch, hmiss] at hout
    cases hex2 : extract resp2 with
    | error e => simp only [hex2] at hout; exact Except.noConfusion hout
    | ok w =>
      simp only [hex2] at hout
      by_cases ht2 : isTruthy w = true
      · simp only [ht2, if_true] at hout
        injection hout with hout'
        exact (congrArg (fun t => t.2.2) hout').symm
      · rw [Bool.not_eq_true] at ht2
        simp only [ht2, Bool.false_eq_true, if_false] at hout
        injection hout with hout'
        exact (congrArg (fun t => t.2.2) hout').symm
  · exact fun calls log hall h =>
      runCalls_at_most_once extract key calls cache log hall h
  · exact fun calls log hall h =>
      runCalls_empty_refetch extract calls log hall h
  · intro ht
    rw [clustersFetch, ht]
    rfl
  · intro cl ht hcl
    rw [clustersFetch, ht]
    constructor
    · intro htcl
      simp only [Bool.false_eq_true, if_false, hcl, htcl, if_true]
    · intro htcl
      simp only [Bool.false_eq_true, if_false, hcl, htcl]

/-- Witness for `cache_at_most_once`: two calls with the same key and a
non-empty `clusters` payload issue exactly one request (the log is
`[request, cache hit]`). -/
theorem cache_at_most_once_witness :
    countReqs "k"
      [("k", true), ("k", false)] ≤ 1 :=
  (cache_at_most_once (fun d => pyGet d "clusters" (.list [])) [] "k"
    PyVal.none PyVal.none PyVal.none).2.2.1
    [("k", .dict [("clusters", .list [.str "c1"])]),
     ("k", .dict [("clusters", .list [.str "c1"])])]
    [("k", true), ("k", false)]
    (by
      intro c hc
      refine ⟨.list [.str "c1"], ?_, rfl⟩
      rcases List.mem_cons.mp hc with h | h
      · rw [h]; rfl
      · rcases List.mem_cons.mp h with h2 | h2
        · rw [h2]; rfl
        · exact absurd h2 (List.not_mem_nil c))
    rfl

/-! ## Lemmas about comparisons, min/max and sorting (for C6/C7) -/

theorem exc_bind_ok {α β : Type} (a : α) (f : α → Except PyErr β) :
    (Except.ok a >>= f) = f a := rfl

theorem exc_bind_err {α β : Type} (e : PyErr) (f : α → Except PyErr β) :
    ((Except.error e : Except PyErr α) >>= f) = Except.error e := rfl

theorem exc_bind_pure {α β : Type} (a : α) (f : α → Except PyErr β) :
    ((pure a : Except PyErr α) >>= f) = f a := rfl

theorem pyLt_int (a b : Int) :
    pyLt (.int a) (.int b) = .ok (decide (a < b)) := rfl

theorem pyLt_str (a b : String) :
    pyLt (.str a) (.str b) = .ok (strLtB a b) := rfl

theorem charsLtB_iff :
    ∀ (cs ds : List Char), charsLtB cs ds = true ↔ List.lt cs ds := by
  intro cs
  induction cs with
  | nil =>
    intro ds
    cases ds with
    | nil =>
      constructor
      · intro h
        exact Bool.noConfusion h
      · intro h
        cases h
    | cons d ds =>
      constructor
      · intro _
        exact List.lt.nil d ds
      · intro _
        rfl
  | cons a as ih =>
    intro ds
    cases ds with
    | nil =>
      constructor
      · intro h
        exact Bool.noConfusion h
      · intro h
        cases h
    | cons b bs =>
      rw [charsLtB]
      by_cases hab : a < b
      · rw [if_pos hab]
        constructor
        · intro _
          exact List.lt.head as bs hab
        · intro _
          rfl
      · rw [if_neg hab]
        by_cases hba : b < a
        · rw [if_pos hba]
          constructor
          · intro h
            exact Bool.noConfusion h
          · intro h
            cases h with
            | head _ _ h1 => exact absurd h1 hab
            | tail _ h2 _ => exact absurd hba h2
        · rw [if_neg hba]
          rw [ih bs]
          constructor
          · intro h
            exact List.lt.tail hab hba h
          · intro h
            cases h with
            | head _ _ h1 => exact absurd h1 hab
            | tail _ _ h3 => exact h3

theorem strLtB_iff (a b : String) : strLtB a b = true ↔ a < b := by
  rw [strLtB, charsLtB_iff, List.lt_iff_lex_lt, String.lt_iff_toList_lt]
  exact Iff.rfl

theorem strLtB_eq_false_iff (a b : String) : strLtB a b = false ↔ ¬ a < b := by
  rw [← Bool.not_eq_true, strLtB_iff a b]

theorem pyGt_int (a b : Int) :
    pyGt (.int a) (.int b) = .ok (decide (b < a)) := rfl

theorem pyMinList_ints (n : Int) (ns : List Int) :
    pyMinList ((n :: ns).map .int) = .ok (.int (ns.foldl min n)) := by
  rw [List.map_cons, pyMinList]
  induction ns generalizing n with
  | nil => rfl
  | cons y t ih =>
    rw [List.map_cons, List.foldlM_cons, List.foldl_cons]
    have hstep :
        (do
          let l ← pyLt (.int y) (.int n)
          pure (if l then PyVal.int y else PyVal.int n)) =
          (Except.ok (.int (min n y)) : Except PyErr PyVal) := by
      rw [pyLt_int, exc_bind_ok]
      by_cases h : y < n
      · simp [h, min_eq_right (le_of_lt h)]; rfl
      · simp [h, min_eq_left (show n ≤ y by omega)]; rfl
    rw [hstep, exc_bind_ok]
    exact ih (min n y)

theorem pyMaxList_ints (n : Int) (ns : List Int) :
    pyMaxList ((n :: ns).map .int) = .ok (.int (ns.foldl max n)) := by
  rw [List.map_cons, pyMaxList]
  induction ns generalizing n with
  | nil => rfl
  | cons y t ih =>
    rw [List.map_cons, List.foldlM_cons, List.foldl_cons]
    have hstep :
        (do
          let g ← pyGt (.int y) (.int n)
          pure (if g then PyVal.int y else PyVal.int n)) =
          (Except.ok (.int (max n y)) : Except PyErr PyVal) := by
      rw [pyGt_int, exc_bind_ok]
      by_cases h : n < y
      · simp [h, max_eq_right (le_of_lt h)]; rfl
      · simp [h, max_eq_left (show y ≤ n by omega)]; rfl
    rw [hstep, exc_bind_ok]
    exact ih (max n y)

theorem foldl_min_spec (ns : List Int) :
    ∀ n : Int, ns.foldl min n ∈ n :: ns ∧ ∀ x ∈ n :: ns, ns.foldl min n ≤ x := by
  induction ns with
  | nil =>
    intro n
    refine ⟨List.mem_singleton.mpr rfl, ?_⟩
    intro x hx
    rw [List.mem_singleton.mp hx]
    exact le_refl _
  | cons y t ih =>
    intro n
    rw [List.foldl_cons]
    obtain ⟨hmem, hle⟩ := ih (min n y)
    constructor
    · rcases List.mem_cons.mp hmem with h | h
      · rcases min_cases n y with ⟨he, _⟩ | ⟨he, _⟩
        · rw [h, he]; exact List.mem_cons_self _ _
        · rw [h, he]
          exact List.mem_cons_of_mem _ (List.mem_cons_self _ _)
      · exact List.mem_cons_of_mem _ (List.mem_cons_of_mem _ h)
    · intro x hx
      rcases List.mem_cons.mp hx with h | h
      · calc t.foldl min (min n y) ≤ min n y := hle _ (List.mem_cons_self _ _)
          _ ≤ n := min_le_left _ _
          _ = x := h.symm
      · rcases List.mem_cons.mp h with h2 | h2
        · calc t.foldl min (min n y) ≤ min n y := hle _ (List.mem_cons_self _ _)
            _ ≤ y := min_le_right _ _
            _ = x := h2.symm
        · exact hle x (List.mem_cons_of_mem _ h2)

theorem foldl_max_spec (ns : List Int) :
    ∀ n : Int, ns.foldl max n ∈ n :: ns ∧ ∀ x ∈ n :: ns, x ≤ ns.foldl max n := by
  induction ns with
  | nil =>
    intro n
    refine ⟨List.mem_singleton.mpr rfl, ?_⟩
    intro x hx
    rw [List.mem_singleton.mp hx]
    exact le_refl _
  | cons y t ih =>
    intro n
    rw [List.foldl_cons]
    obtain ⟨hmem, hle⟩ := ih (max n y)
    constructor
    · rcases List.mem_cons.mp hmem with h | h
      · rcases max_cases n y with ⟨he, _⟩ | ⟨he, _⟩
        · rw [h, he]; exact List.mem_cons_self _ _
        · rw [h, he]
          exact List.mem_cons_of_mem _ (List.mem_cons_self _ _)
      · exact List.mem_cons_of_mem _ (List.mem_cons_of_mem _ h)
    · intro x hx
      rcases List.mem_cons.mp hx with h | h
      · calc x = n := h
          _ ≤ max n y := le_max_left _ _
          _ ≤ t.foldl max (max n y) := hle _ (List.mem_cons_self _ _)
      · rcases List.mem_cons.mp h with h2 | h2
        · calc x = y := h2
            _ ≤ max n y := le_max_right _ _
            _ ≤ t.foldl max (max n y) := hle _ (List.mem_cons_self _ _)
        · exact hle x (List.mem_cons_of_mem _ h2)

theorem match_topic_str (compile : String → Regex) (ft : Option String)
    (t : String) :
    match_topic compile ft (.str t) = .ok (matchTopicB compile ft t) := by
  rw [match_topic, matchTopicB]
  by_cases h : optTruthy ft = true
  · simp only [h, Bool.not_true, Bool.false_eq_true, if_false]
    by_cases he : t.isEmpty = true
    · simp only [isTruthy, he, Bool.not_true, Bool.not_false, if_true, if_pos rfl]
    · rw [Bool.not_eq_true] at he
      simp only [isTruthy, he, Bool.not_true, Bool.not_false,
        Bool.false_eq_true, if_false]
  · rw [Bool.not_eq_true] at h
    simp only [h, Bool.not_false, if_true]

theorem intsOf_map_int (ns : List Int) : intsOf (ns.map .int) = ns := by
  induction ns with
  | nil => rfl
  | cons n t ih => simp only [List.map_cons, intsOf, List.filterMap_cons] at *; simp [ih]

theorem mapM_format_ints (decimal : Bool) (ns : List Int) :
    (ns.map PyVal.int).mapM (format_number decimal) =
      .ok (ns.map (formatInt decimal)) := by
  induction ns with
  | nil => rfl
  | cons n t ih =>
    rw [List.map_cons, List.mapM_cons, ih]
    rfl

theorem topic_row_ints (decimal : Bool) (t : PyVal) (n : Int) (ns : List Int) :
    topic_row decimal t (.list ((n :: ns).map .int)) =
      .ok ⟨t, (n :: ns).length, .int (ns.foldl min n), .int (ns.foldl max n),
        String.intercalate "," ((n :: ns).map (formatInt decimal))⟩ := by
  rw [topic_row]
  show (Except.ok ((n :: ns).map PyVal.int) >>= _) = _
  rw [exc_bind_ok, pyMaxList_ints, exc_bind_ok, pyMinList_ints, exc_bind_ok,
    mapM_format_ints, exc_bind_ok]
  simp only [List.length_map]
  rfl

theorem pyOrderedInsert_str_ok {α : Type} (key : α → PyVal) (x : α)
    (sx : String) (hx : key x = .str sx) :
    ∀ (l : List α), (∀ y ∈ l, ∃ s, key y = .str s) →
      List.Pairwise (keyLE key) l →
      ∃ out, pyOrderedInsertByKey key x l = .ok out ∧
        out.Perm (x :: l) ∧ List.Pairwise (keyLE key) out := by
  intro l
  induction l with
  | nil =>
    intro _ _
    exact ⟨[x], rfl, List.Perm.refl _, List.pairwise_singleton _ _⟩
  | cons y rest ih =>
    intro hstr hpw
    obtain ⟨sy, hy⟩ := hstr y (List.mem_cons_self _ _)
    rw [List.pairwise_cons] at hpw
    obtain ⟨hyrest, hpwrest⟩ := hpw
    rw [pyOrderedInsertByKey, hx, hy, pyLt_str]
    by_cases hlt : sx < sy
    · rw [(strLtB_iff sx sy).mpr hlt]
      simp only [if_true, exc_bind_ok]
      refine ⟨x :: y :: rest, by rfl, List.Perm.refl _, ?_⟩
      rw [List.pairwise_cons]
      constructor
      · intro z hz
        intro sa sb ha hb
        rw [hx] at ha
        injection ha with ha'
        rcases List.mem_cons.mp hz with hz | hz
        · rw [hz, hy] at hb
          injection hb with hb'
          rw [← ha', ← hb']
          exact le_of_lt hlt
        · obtain ⟨sz, hzs⟩ := hstr z (List.mem_cons_of_mem _ hz)
          have : sy ≤ sb := hyrest z hz sy sb hy hb
          rw [← ha']
          exact le_trans (le_of_lt hlt) this
      · rw [List.pairwise_cons]
        exact ⟨hyrest, hpwrest⟩
    · rw [(strLtB_eq_false_iff sx sy).mpr hlt]
      simp only [Bool.false_eq_true, if_false, exc_bind_ok]
      obtain ⟨out', hout', hperm', hpw'⟩ :=
        ih (fun z hz => hstr z (List.mem_cons_of_mem _ hz)) hpwrest
      rw [hout', exc_bind_ok]
      refine ⟨y :: out', rfl, ?_, ?_⟩
      · exact (List.Perm.cons y hperm').trans (List.Perm.swap x y rest)
      · rw [List.pairwise_cons]
        refine ⟨?_, hpw'⟩
        intro z hz
        have hz2 : z = x ∨ z ∈ rest := by
          have := hperm'.mem_iff.mp hz
          rw [List.mem_cons] at this
          exact this
        intro sa sb ha hb
        rw [hy] at ha
        injection ha with ha'
        rcases hz2 with hz2 | hz2
        · rw [hz2, hx] at hb
          injection hb with hb'
          rw [← ha', ← hb']
          exact le_of_not_lt hlt
        · rw [← ha']
          exact hyrest z hz2 sy sb hy hb

theorem pySortByKey_str_ok {α : Type} (key : α → PyVal) :
    ∀ (l : List α), (∀ y ∈ l, ∃ s, key y = .str s) →
      ∃ out, pySortByKey key l = .ok out ∧
        out.Perm l ∧ List.Pairwise (keyLE key) out := by
  intro l
  induction l with
  | nil => exact fun _ => ⟨[], rfl, List.Perm.refl _, List.Pairwise.nil⟩
  | cons x rest ih =>
    intro hstr
    obtain ⟨out', hout', hperm', hpw'⟩ :=
      ih (fun z hz => hstr z (List.mem_cons_of_mem _ hz))
    obtain ⟨sx, hx⟩ := hstr x (List.mem_cons_self _ _)
    have hstr' : ∀ y ∈ out', ∃ s, key y = .str s := fun y hy =>
      hstr y (List.mem_cons_of_mem _ (hperm'.mem_iff.mp hy))
    obtain ⟨out, hout, hperm, hpw⟩ :=
      pyOrderedInsert_str_ok key x sx hx out' hstr' hpw'
    rw [pySortByKey, hout', exc_bind_ok, hout]
    exact ⟨out, rfl, hperm.trans (List.Perm.cons x hperm'), hpw⟩

theorem format_number_int (decimal : Bool) (m : Int) :
    format_number decimal (.int m) = .ok (formatInt decimal m) := rfl

theorem intsOf_int_cons_map (n : Int) (ns : List Int) :
    intsOf (PyVal.int n :: ns.map .int) = n :: ns := by
  rw [← List.map_cons]
  exact intsOf_map_int _

theorem topics_build_fold (compile : String → Regex) (ft : Option String)
    (decimal : Bool) (details : PyVal → PyVal) :
    ∀ (ts : List PyVal) (acc : List (List PyVal)),
      (∀ t ∈ ts, ∃ s, t = .str s) →
      (∀ t ∈ ts, topicPassB compile ft t = true →
        ∃ n ns, details t = .list ((n :: ns).map .int)) →
      ts.foldlM (topics_build_step compile ft decimal false details) acc =
        .ok (acc ++ (ts.filter (topicPassB compile ft)).map
          (specTopicRow decimal details)) := by
  intro ts
  induction ts with
  | nil =>
    intro acc _ _
    simp only [List.foldlM_nil, List.filter_nil, List.map_nil, List.append_nil]
    rfl
  | cons t ts ih =>
    intro acc hstr hint
    obtain ⟨s, rfl⟩ := hstr t (List.mem_cons_self _ _)
    rw [List.foldlM_cons]
    have hstr' := fun z hz => hstr z (List.mem_cons_of_mem _ hz)
    have hint' := fun z hz hp => hint z (List.mem_cons_of_mem _ hz) hp
    by_cases hpass : matchTopicB compile ft s = true
    · obtain ⟨n, ns, hd⟩ := hint _ (List.mem_cons_self _ _)
        (by simp [topicPassB, hpass])
      have hstep : topics_build_step compile ft decimal false details acc
          (.str s) = .ok (acc ++ [specTopicRow decimal details (.str s)]) := by
        rw [topics_build_step, match_topic_str, exc_bind_ok, hpass]
        simp only [Bool.not_true, Bool.false_eq_true, if_false]
        rw [hd, topic_row_ints, exc_bind_ok]
        simp only [Bool.false_eq_true, if_false]
        rw [format_number_int, exc_bind_ok, format_number_int, exc_bind_ok]
        have hspec : specTopicRow decimal details (.str s) =
            [.str s, .int (n :: ns).length,
             .str (formatInt decimal (ns.foldl min n)),
             .str (formatInt decimal (ns.foldl max n))] := by
          rw [specTopicRow, hd]
          simp [intsOf_int_cons_map, intMin, intMax]
        rw [hspec]
        rfl
      rw [hstep, exc_bind_ok, ih (acc ++ [specTopicRow decimal details
        (.str s)]) hstr' hint']
      have hp2 : topicPassB compile ft (.str s) = true := by
        simp [topicPassB, hpass]
      rw [List.filter_cons_of_pos hp2, List.map_cons]
      simp [List.append_assoc]
    · have hstep : topics_build_step compile ft decimal false details acc
          (.str s) = .ok acc := by
        rw [topics_build_step, match_topic_str, exc_bind_ok]
        rw [Bool.not_eq_true] at hpass
        rw [hpass]
        rfl
      rw [hstep, exc_bind_ok, ih acc hstr' hint']
      have hp2 : topicPassB compile ft (.str s) = false := by
        rw [Bool.not_eq_true] at hpass
        simp [topicPassB, hpass]
      rw [List.filter_cons_of_neg (by simp [hp2])]

/-- C7: in the compact topic-summary, the produced rows are exactly one
row per filter-passing topic (as a permutation), sorted by the `Topic`
column, where each row carries the partition count = number of entries
of the raw offset list and the formatted minimum and maximum over that
list (characterized as membership and bounds); rows with the same topic
are identical, so the sorted output is independent of fetch order.  On
the reference offsets `[2290903, 2898892, 3902933, 2328823]` the row is
`partitions=4, min=2290903, max=3902933`. -/
theorem report_topics_summary_spec :
    ∀ (compile : String → Regex) (ft : Option String) (decimal : Bool)
      (topicsList : List PyVal) (details : PyVal → PyVal),
      (∀ t ∈ topicsList, ∃ s, t = .str s) →
      (∀ t ∈ topicsList, topicPassB compile ft t = true →
        ∃ n ns, details t = .list ((n :: ns).map .int)) →
      (∃ rows,
        report_topics_rows compile ft decimal false topicsList details =
          .ok rows ∧
        rows.Perm ((topicsList.filter (topicPassB compile ft)).map
          (specTopicRow decimal details)) ∧
        List.Pairwise (keyLE (fun row => row.headD PyVal.none)) rows ∧
        (∀ t n ns, details t = .list ((n :: ns).map .int) →
          specTopicRow decimal details t =
            [t, .int (n :: ns).length,
             .str (formatInt decimal (intMin (n :: ns))),
             .str (formatInt decimal (intMax (n :: ns)))] ∧
          intMin (n :: ns) ∈ n :: ns ∧
          (∀ x ∈ n :: ns, intMin (n :: ns) ≤ x) ∧
          intMax (n :: ns) ∈ n :: ns ∧
          (∀ x ∈ n :: ns, x ≤ intMax (n :: ns))) ∧
        (∀ r1 r2, r1 ∈ rows → r2 ∈ rows →
          r1.headD PyVal.none = r2.headD PyVal.none → r1 = r2)) ∧
      report_topics_rows (fun _ => Regex.any) Option.none false false
        [.str "topicA"]
        (fun _ => .list [.int 2290903, .int 2898892, .int 3902933,
          .int 2328823]) =
        .ok [[.str "topicA", .int 4, .str "2290903", .str "3902933"]] := by
  intro compile ft decimal topicsList details hstr hint
  refine ⟨?_, rfl⟩
  have hbuild := topics_build_fold compile ft decimal details topicsList []
    hstr hint
  have hrows : ∀ r ∈ (topicsList.filter (topicPassB compile ft)).map
      (specTopicRow decimal details), ∃ t, t ∈ topicsList ∧
        topicPassB compile ft t = true ∧ r = specTopicRow decimal details t := by
    intro r hr
    rw [List.mem_map] at hr
    obtain ⟨t, ht, rfl⟩ := hr
    rw [List.mem_filter] at ht
    exact ⟨t, ht.1, ht.2, rfl⟩
  have hkey : ∀ r ∈ (topicsList.filter (topicPassB compile ft)).map
      (specTopicRow decimal details), ∃ s, r.headD PyVal.none = .str s ∧
        r = specTopicRow decimal details (.str s) := by
    intro r hr
    obtain ⟨t, ht, hp, rfl⟩ := hrows r hr
    obtain ⟨s, rfl⟩ := hstr t ht
    obtain ⟨n, ns, hd⟩ := hint _ ht hp
    refine ⟨s, ?_, rfl⟩
    rw [specTopicRow, hd]
    rfl
  obtain ⟨rows, hsort, hperm, hpw⟩ :=
    pySortByKey_str_ok (fun row => row.headD PyVal.none)
      ((topicsList.filter (topicPassB compile ft)).map
        (specTopicRow decimal details))
      (fun r hr => ⟨(hkey r hr).choose, (hkey r hr).choose_spec.1⟩)
  refine ⟨rows, ?_, hperm, hpw, ?_, ?_⟩
  · rw [report_topics_rows, hbuild, exc_bind_ok]
    simp only [List.nil_append]
    exact hsort
  · intro t n ns hd
    refine ⟨?_, ?_, ?_, ?_, ?_⟩
    · rw [specTopicRow, hd]
      simp [intsOf_int_cons_map, intMin, intMax]
    · exact (foldl_min_spec ns n).1
    · exact (foldl_min_spec ns n).2
    · exact (foldl_max_spec ns n).1
    · exact (foldl_max_spec ns n).2
  · intro r1 r2 h1 h2 hh
    obtain ⟨s1, hk1, he1⟩ := hkey r1 (hperm.mem_iff.mp h1)
    obtain ⟨s2, hk2, he2⟩ := hkey r2 (hperm.mem_iff.mp h2)
    rw [hk1, hk2] at hh
    injection hh with hh'
    rw [he1, he2, hh']

/-- Witness for `report_topics_summary_spec`: the reference topic with
offsets `[2290903, 2898892, 3902933, 2328823]`. -/
theorem report_topics_summary_spec_witness :
    report_topics_rows (fun _ => Regex.any) Option.none false false
      [.str "topicA"]
      (fun _ => .list [.int 2290903, .int 2898892, .int 3902933,
        .int 2328823]) =
      .ok [[.str "topicA", .int 4, .str "2290903", .str "3902933"]] :=
  (report_topics_summary_spec (fun _ => Regex.any) Option.none false
    [.str "topicA"]
    (fun _ => .list [.int 2290903, .int 2898892, .int 3902933, .int 2328823])
    (by intro t ht; rw [List.mem_singleton.mp ht]; exact ⟨"topicA", rfl⟩)
    (by
      intro t ht _
      exact ⟨2290903, [2898892, 3902933, 2328823], rfl⟩)).2

/-! ## Consumer-status aggregation (for C6/C10) -/

/-- Well-typedness of a partition record as the claims use it: a dict
whose normalized topic and owner are strings and whose normalized offset
and timestamp are integers. -/
def WTPart (p : PyVal) : Prop :=
  ∃ kvs, p = .dict kvs ∧
    (∃ t, (get_partition_stats_dict kvs).topic = .str t) ∧
    (∃ s, (get_partition_stats_dict kvs).owner = .str s) ∧
    (∃ a : Int, (get_partition_stats_dict kvs).offset = .int a) ∧
    (∃ b : Int, (get_partition_stats_dict kvs).timestamp = .int b)

/-- Does a partition record pass the topic filter? -/
def partPassB (compile : String → Regex) (ft : Option String)
    (p : PyVal) : Bool :=
  match p with
  | .dict kvs => topicPassB compile ft (get_partition_stats_dict kvs).topic
  | _ => false

/-- The owner-set effect of one partition-loop iteration: a partition
that passes the filter and has a truthy owner inserts that owner. -/
def ownerStep (compile : String → Regex) (ft : Option String)
    (os : List PyVal) (p : PyVal) : List PyVal :=
  match p with
  | .dict kvs =>
    if partPassB compile ft p &&
        isTruthy (get_partition_stats_dict kvs).owner then
      setAdd os (get_partition_stats_dict kvs).owner
    else os
  | _ => os

/-- A partition record contributes the owner string `s` to the owner
set: it is a filter-passing dict whose normalized owner is the
non-empty string `s`. -/
def ownerContrib (compile : String → Regex) (ft : Option String)
    (p : PyVal) (s : String) : Prop :=
  ∃ kvs, p = .dict kvs ∧ partPassB compile ft p = true ∧
    (get_partition_stats_dict kvs).owner = .str s ∧ s ≠ ""

/-- Invariants of the partition-loop accumulator: integer running
maxima, string owners without duplicates, string tally keys. -/
def AccWT (acc : StatusAcc) : Prop :=
  (∃ a : Int, acc.maxOffset = .int a) ∧
  (∃ b : Int, acc.maxTimestamp = .int b) ∧
  (∀ v ∈ acc.owners, ∃ s, v = .str s) ∧
  acc.owners.Nodup ∧
  (∀ kv ∈ acc.topics, ∃ s, (kv : PyVal × Nat).1 = .str s)

/-- The strings of an all-string value list. -/
def strsOf (xs : List PyVal) : List String :=
  xs.filterMap (fun v => match v with | .str s => some s | _ => Option.none)

theorem pyval_beq_str (a b : String) :
    (PyVal.str a == PyVal.str b) = (a == b) := rfl

theorem contains_str_iff (s : String) :
    ∀ (os : List PyVal), (∀ v ∈ os, ∃ t, v = .str t) →
      (os.contains (.str s) = true ↔ .str s ∈ os) := by
  intro os
  induction os with
  | nil => intro _; simp
  | cons y rest ih =>
    intro hstr
    obtain ⟨t, rfl⟩ := hstr y (List.mem_cons_self _ _)
    rw [List.contains_cons]
    rw [Bool.or_eq_true, pyval_beq_str, List.mem_cons]
    constructor
    · rintro (h | h)
      · left
        rw [beq_iff_eq] at h
        rw [h]
      · right
        exact (ih (fun v hv => hstr v (List.mem_cons_of_mem _ hv))).mp h
    · rintro (h | h)
      · left
        injection h with h'
        exact beq_iff_eq.mpr h'
      · right
        exact (ih (fun v hv => hstr v (List.mem_cons_of_mem _ hv))).mpr h

theorem mem_setAdd_str (os : List PyVal) (hstr : ∀ v ∈ os, ∃ t, v = .str t)
    (x s : String) :
    .str s ∈ setAdd os (.str x) ↔ .str s ∈ os ∨ s = x := by
  rw [setAdd]
  by_cases hc : os.contains (.str x) = true
  · rw [if_pos hc]
    constructor
    · exact fun h => Or.inl h
    · rintro (h | h)
      · exact h
      · rw [h]
        exact (contains_str_iff x os hstr).mp hc
  · rw [if_neg hc]
    rw [List.mem_append, List.mem_singleton]
    constructor
    · rintro (h | h)
      · exact Or.inl h
      · simp only [PyVal.str.injEq] at h
        exact Or.inr h
    · rintro (h | h)
      · exact Or.inl h
      · right
        rw [h]

theorem setAdd_allstr (os : List PyVal) (x : String)
    (hstr : ∀ v ∈ os, ∃ t, v = .str t) :
    ∀ v ∈ setAdd os (.str x), ∃ t, v = .str t := by
  intro v hv
  rw [setAdd] at hv
  by_cases hc : os.contains (.str x) = true
  · rw [if_pos hc] at hv
    exact hstr v hv
  · rw [if_neg hc] at hv
    rcases List.mem_append.mp hv with h | h
    · exact hstr v h
    · exact ⟨x, List.mem_singleton.mp h⟩

theorem setAdd_nodup (os : List PyVal) (x : String)
    (hstr : ∀ v ∈ os, ∃ t, v = .str t) (hnd : os.Nodup) :
    (setAdd os (.str x)).Nodup := by
  rw [setAdd]
  by_cases hc : os.contains (.str x) = true
  · rw [if_pos hc]
    exact hnd
  · rw [if_neg hc]
    have hnm : .str x ∉ os := by
      intro hmem
      exact hc ((contains_str_iff x os hstr).mpr hmem)
    rw [List.nodup_append]
    exact ⟨hnd, List.nodup_singleton _,
      fun a ha hb => hnm ((List.mem_singleton.mp hb) ▸ ha)⟩

theorem tallyAdd_keys (P : PyVal → Prop) (k : PyVal) (hk : P k) :
    ∀ (tl : List (PyVal × Nat)), (∀ kv ∈ tl, P kv.1) →
      ∀ kv ∈ tallyAdd tl k, P kv.1 := by
  intro tl
  induction tl with
  | nil =>
    intro _ kv hkv
    rw [tallyAdd] at hkv
    rw [List.mem_singleton.mp hkv]
    exact hk
  | cons e rest ih =>
    intro hall kv hkv
    obtain ⟨k', c⟩ := e
    rw [tallyAdd] at hkv
    by_cases he : (k' == k) = true
    · rw [if_pos he] at hkv
      rcases List.mem_cons.mp hkv with h | h
      · rw [h]
        exact hall (k', c) (List.mem_cons_self _ _)
      · exact hall kv (List.mem_cons_of_mem _ h)
    · rw [if_neg he] at hkv
      rcases List.mem_cons.mp hkv with h | h
      · rw [h]
        exact hall (k', c) (List.mem_cons_self _ _)
      · exact ih (fun kv2 hk2 => hall kv2 (List.mem_cons_of_mem _ hk2)) kv h

theorem allstr_eq_map (os : List PyVal) (hstr : ∀ v ∈ os, ∃ t, v = .str t) :
    os = (strsOf os).map .str := by
  induction os with
  | nil => rfl
  | cons y rest ih =>
    obtain ⟨t, rfl⟩ := hstr y (List.mem_cons_self _ _)
    rw [strsOf, List.filterMap_cons]
    simp only []
    rw [List.map_cons]
    have := ih (fun v hv => hstr v (List.mem_cons_of_mem _ hv))
    rw [strsOf] at this
    rw [← this]

theorem pyJoin_strs (sep : String) (l : List String) :
    pyJoin sep (l.map .str) = .ok (String.intercalate sep l) := by
  rw [pyJoin]
  have : (l.map PyVal.str).mapM (fun v =>
      match v with
      | .str s => Except.ok s
      | _ => Except.error PyErr.typeError) = (Except.ok l : Except PyErr _) := by
    induction l with
    | nil => rfl
    | cons x t ih =>
      rw [List.map_cons, List.mapM_cons, ih]
      rfl
  rw [this]
  rfl

theorem get_partition_stats_dict_eq (kvs : List (String × PyVal)) :
    get_partition_stats (.dict kvs) = .ok (get_partition_stats_dict kvs) := rfl

theorem status_update_maxima_ok (acc : StatusAcc) (st : PartitionStats)
    (a a' b b' : Int) (hmo : acc.maxOffset = .int a)
    (hmt : acc.maxTimestamp = .int b) (ho : st.offset = .int a')
    (ht : st.timestamp = .int b') :
    ∃ acc', status_update_maxima acc st = .ok acc' ∧
      acc'.owners = acc.owners ∧ acc'.topics = acc.topics ∧
      (∃ x : Int, acc'.maxOffset = .int x) ∧
      (∃ y : Int, acc'.maxTimestamp = .int y) := by
  rw [status_update_maxima, ho, hmo, pyGt_int, exc_bind_ok]
  by_cases hg1 : a < a'
  · simp only [hg1, decide_True, if_true]
    rw [hmt, ht, pyGt_int, exc_bind_ok]
    by_cases hg2 : b < b'
    · simp only [hg2, decide_True, if_true]
      exact ⟨_, rfl, rfl, rfl, ⟨a', rfl⟩, ⟨b', rfl⟩⟩
    · simp only [hg2, decide_False, Bool.false_eq_true, if_false]
      exact ⟨_, rfl, rfl, rfl, ⟨a', rfl⟩, ⟨b, rfl⟩⟩
  · simp only [hg1, decide_False, Bool.false_eq_true, if_false]
    rw [hmt, ht, pyGt_int, exc_bind_ok]
    by_cases hg2 : b < b'
    · simp only [hg2, decide_True, if_true]
      exact ⟨_, rfl, rfl, rfl, ⟨a, hmo⟩, ⟨b', rfl⟩⟩
    · simp only [hg2, decide_False, Bool.false_eq_true, if_false]
      exact ⟨_, rfl, rfl, rfl, ⟨a, hmo⟩, ⟨b, hmt⟩⟩

theorem status_update_topics_ok (acc : StatusAcc) (st : PartitionStats)
    (t : String) (htop : st.topic = .str t) :
    ∃ acc', status_update_topics acc st = .ok acc' ∧
      acc'.owners = acc.owners ∧ acc'.maxOffset = acc.maxOffset ∧
      acc'.maxTimestamp = acc.maxTimestamp ∧
      ((∀ kv ∈ acc.topics, ∃ s, (kv : PyVal × Nat).1 = .str s) →
        ∀ kv ∈ acc'.topics, ∃ s, (kv : PyVal × Nat).1 = .str s) := by
  rw [status_update_topics, htop]
  by_cases htr : isTruthy (PyVal.str t) = true
  · rw [if_pos htr]
    have hh : pyHashable (PyVal.str t) = true := rfl
    rw [if_pos hh]
    refine ⟨_, rfl, rfl, rfl, rfl, ?_⟩
    intro hkeys
    exact tallyAdd_keys (fun k => ∃ s, k = .str s) (.str t) ⟨t, rfl⟩
      acc.topics hkeys
  · rw [if_neg htr]
    exact ⟨acc, rfl, rfl, rfl, rfl, fun h => h⟩

theorem status_update_owners_ok (acc : StatusAcc) (st : PartitionStats)
    (so : String) (hw : st.owner = .str so) :
    status_update_owners acc st =
      .ok (if isTruthy st.owner then
            { acc with owners := setAdd acc.owners st.owner }
          else acc) := by
  rw [status_update_owners]
  by_cases htr : isTruthy st.owner = true
  · rw [if_pos htr, if_pos htr]
    rw [hw]
    have hh : pyHashable (PyVal.str so) = true := rfl
    rw [if_pos hh]
    rfl
  · rw [if_neg htr, if_neg htr]
    rfl

theorem status_step_ok (compile : String → Regex) (ft : Option String)
    (acc : StatusAcc) (p : PyVal) (hp : WTPart p) (hacc : AccWT acc) :
    ∃ acc', status_partition_step compile ft acc p = .ok acc' ∧
      acc'.owners = ownerStep compile ft acc.owners p ∧ AccWT acc' := by
  obtain ⟨kvs, rfl, ⟨t, htop⟩, ⟨so, hown⟩, ⟨a', hoff⟩, ⟨b', hts⟩⟩ := hp
  obtain ⟨⟨a, hmo⟩, ⟨b, hmt⟩, hosstr, hosnd, htkeys⟩ := hacc
  rw [status_partition_step, get_partition_stats_dict_eq, exc_bind_ok, htop,
    match_topic_str, exc_bind_ok]
  by_cases hm : matchTopicB compile ft t = true
  · simp only [hm, Bool.not_true, Bool.false_eq_true, if_false]
    obtain ⟨acc1, hacc1, ho1, ht1, ⟨x1, hx1⟩, ⟨y1, hy1⟩⟩ :=
      status_update_maxima_ok acc _ a a' b b' hmo hmt hoff hts
    rw [hacc1, exc_bind_ok]
    obtain ⟨acc2, hacc2, ho2, hmo2, hmt2, hk2⟩ :=
      status_update_topics_ok acc1 _ t htop
    rw [hacc2, exc_bind_ok]
    rw [status_update_owners_ok acc2 _ so hown]
    have howners : acc2.owners = acc.owners := by rw [ho2, ho1]
    have hkeys2 : ∀ kv ∈ acc2.topics, ∃ s, (kv : PyVal × Nat).1 = .str s :=
      hk2 (by rw [ht1]; exact htkeys)
    refine ⟨_, rfl, ?_, ?_⟩
    · rw [ownerStep]
      have hpass : partPassB compile ft (.dict kvs) = true := by
        rw [partPassB, htop]
        simp [topicPassB, hm]
      rw [hpass, Bool.true_and]
      by_cases htr : isTruthy (get_partition_stats_dict kvs).owner = true
      · rw [if_pos htr, if_pos htr]
        rw [howners]
      · rw [if_neg htr, if_neg htr]
        exact howners
    · by_cases htr : isTruthy (get_partition_stats_dict kvs).owner = true
      · rw [if_pos htr]
        refine ⟨⟨x1, by show acc2.maxOffset = PyVal.int x1; rw [hmo2]; exact hx1⟩,
          ⟨y1, by show acc2.maxTimestamp = PyVal.int y1; rw [hmt2]; exact hy1⟩,
          ?_, ?_, by exact hkeys2⟩
        · show ∀ v ∈ setAdd acc2.owners (get_partition_stats_dict kvs).owner,
            ∃ s, v = PyVal.str s
          rw [howners, hown]
          exact setAdd_allstr acc.owners so hosstr
        · show (setAdd acc2.owners (get_partition_stats_dict kvs).owner).Nodup
          rw [howners, hown]
          exact setAdd_nodup acc.owners so hosstr hosnd
      · rw [if_neg htr]
        refine ⟨⟨x1, by rw [hmo2]; exact hx1⟩,
          ⟨y1, by rw [hmt2]; exact hy1⟩, ?_, ?_, hkeys2⟩
        · rw [howners]
          exact hosstr
        · rw [howners]
          exact hosnd
  · rw [Bool.not_eq_true] at hm
    simp only [hm, Bool.not_false, if_true]
    refine ⟨acc, rfl, ?_, ⟨a, hmo⟩, ⟨b, hmt⟩, hosstr, hosnd, htkeys⟩
    rw [ownerStep]
    have hpass : partPassB compile ft (.dict kvs) = false := by
      rw [partPassB, htop]
      simp [topicPassB, hm]
    rw [hpass, Bool.false_and]
    rfl

theorem isTruthy_str_iff (s : String) : isTruthy (.str s) = true ↔ s ≠ "" := by
  rw [isTruthy, Bool.not_eq_true']
  constructor
  · intro h hs
    rw [hs] at h
    exact Bool.noConfusion h
  · intro h
    rcases he : s.isEmpty with _ | _
    · rfl
    · exact absurd ((String.isEmpty_iff s).mp he) h

theorem ownerStep_dict (compile : String → Regex) (ft : Option String)
    (os : List PyVal) (kvs : List (String × PyVal)) :
    ownerStep compile ft os (.dict kvs) =
      if partPassB compile ft (.dict kvs) &&
          isTruthy (get_partition_stats_dict kvs).owner then
        setAdd os (get_partition_stats_dict kvs).owner
      else os := rfl

theorem ownerStep_allstr (compile : String → Regex) (ft : Option String)
    (os : List PyVal) (p : PyVal) (hp : WTPart p)
    (hstr : ∀ v ∈ os, ∃ t, v = .str t) :
    ∀ v ∈ ownerStep compile ft os p, ∃ t, v = .str t := by
  obtain ⟨kvs, rfl, _, ⟨so, hown⟩, _, _⟩ := hp
  rw [ownerStep_dict]
  by_cases hc : (partPassB compile ft (.dict kvs) &&
      isTruthy (get_partition_stats_dict kvs).owner) = true
  · rw [if_pos hc, hown]
    exact setAdd_allstr os so hstr
  · rw [if_neg hc]
    exact hstr

theorem status_fold_ok (compile : String → Regex) (ft : Option String) :
    ∀ (ps : List PyVal) (acc : StatusAcc),
      (∀ p ∈ ps, WTPart p) → AccWT acc →
      ∃ acc', ps.foldlM (status_partition_step compile ft) acc = .ok acc' ∧
        acc'.owners = ps.foldl (ownerStep compile ft) acc.owners ∧
        AccWT acc' := by
  intro ps
  induction ps with
  | nil =>
    intro acc _ hacc
    exact ⟨acc, rfl, rfl, hacc⟩
  | cons p ps ih =>
    intro acc hwt hacc
    rw [List.foldlM_cons]
    obtain ⟨acc1, hstep, ho1, hacc1⟩ :=
      status_step_ok compile ft acc p (hwt p (List.mem_cons_self _ _)) hacc
    rw [hstep, exc_bind_ok]
    obtain ⟨acc', hfold, ho', hacc'⟩ :=
      ih acc1 (fun q hq => hwt q (List.mem_cons_of_mem _ hq)) hacc1
    refine ⟨acc', hfold, ?_, hacc'⟩
    rw [ho', ho1, List.foldl_cons]

theorem mem_ownerStep_fold (compile : String → Regex) (ft : Option String) :
    ∀ (ps : List PyVal) (os : List PyVal),
      (∀ p ∈ ps, WTPart p) → (∀ v ∈ os, ∃ t, v = .str t) →
      ∀ s : String,
        (.str s ∈ ps.foldl (ownerStep compile ft) os ↔
          .str s ∈ os ∨ ∃ p ∈ ps, ownerContrib compile ft p s) := by
  intro ps
  induction ps with
  | nil =>
    intro os _ _ s
    simp
  | cons p ps ih =>
    intro os hwt hstr s
    have hp := hwt p (List.mem_cons_self _ _)
    obtain ⟨kvs, rfl, ⟨t, htop⟩, ⟨so, hown⟩, hoi, hti⟩ := hp
    rw [List.foldl_cons, ownerStep_dict]
    by_cases hc : (partPassB compile ft (.dict kvs) &&
        isTruthy (get_partition_stats_dict kvs).owner) = true
    · rw [if_pos hc]
      rw [Bool.and_eq_true] at hc
      obtain ⟨hpass, htruthy⟩ := hc
      have hsone : so ≠ "" := by
        rw [hown] at htruthy
        exact (isTruthy_str_iff so).mp htruthy
      have hcontrib : ∀ s' : String,
          ownerContrib compile ft (.dict kvs) s' ↔ s' = so := by
        intro s'
        constructor
        · rintro ⟨kvs2, heq, _, hown2, _⟩
          injection heq with heq'
          rw [← heq'] at hown2
          rw [hown] at hown2
          injection hown2 with h
          exact h.symm
        · intro h
          exact ⟨kvs, rfl, hpass, by rw [hown, h], by rw [h]; exact hsone⟩
      rw [hown]
      have hstr' := setAdd_allstr os so hstr
      rw [ih (setAdd os (.str so))
        (fun q hq => hwt q (List.mem_cons_of_mem _ hq)) hstr' s]
      rw [mem_setAdd_str os hstr so s]
      constructor
      · rintro ((h | h) | h)
        · exact Or.inl h
        · exact Or.inr ⟨.dict kvs, List.mem_cons_self _ _,
            (hcontrib s).mpr h⟩
        · obtain ⟨q, hq, hcq⟩ := h
          exact Or.inr ⟨q, List.mem_cons_of_mem _ hq, hcq⟩
      · rintro (h | ⟨q, hq, hcq⟩)
        · exact Or.inl (Or.inl h)
        · rcases List.mem_cons.mp hq with hq | hq
          · rw [hq] at hcq
            exact Or.inl (Or.inr ((hcontrib s).mp hcq))
          · exact Or.inr ⟨q, hq, hcq⟩
    · rw [if_neg hc]
      have hnocontrib : ¬ ownerContrib compile ft (.dict kvs) s := by
        rintro ⟨kvs2, heq, hpass, hown2, hsne⟩
        injection heq with heq'
        rw [← heq'] at hown2
        apply hc
        rw [Bool.and_eq_true]
        refine ⟨hpass, ?_⟩
        rw [hown2]
        exact (isTruthy_str_iff s).mpr hsne
      rw [ih os (fun q hq => hwt q (List.mem_cons_of_mem _ hq)) hstr s]
      constructor
      · rintro (h | ⟨q, hq, hcq⟩)
        · exact Or.inl h
        · exact Or.inr ⟨q, List.mem_cons_of_mem _ hq, hcq⟩
      · rintro (h | ⟨q, hq, hcq⟩)
        · exact Or.inl h
        · rcases List.mem_cons.mp hq with hq | hq
          · rw [hq] at hcq
            exact absurd hcq hnocontrib
          · exact Or.inr ⟨q, hq, hcq⟩

theorem pyGet_dict (kvs : List (String × PyVal)) (k : String) (dflt : PyVal) :
    pyGet (.dict kvs) k dflt = .ok ((dictLookup kvs k).getD dflt) := rfl

theorem pyIn_dict (k : String) (kvs : List (String × PyVal)) :
    pyIn k (.dict kvs) = .ok ((dictLookup kvs k).isSome) := rfl

theorem pyIter_list (xs : List PyVal) : pyIter (.list xs) = .ok xs := rfl

theorem mapM_topicsStrings_ok :
    ∀ (l : List (PyVal × Nat)), (∀ kv ∈ l, ∃ s, (kv : PyVal × Nat).1 = .str s) →
      ∃ out, l.mapM (fun kv => do
        let ks ← pyStrScalar (kv : PyVal × Nat).1
        pure (ks ++ "[" ++ Nat.repr kv.2 ++ "]")) = Except.ok out := by
  intro l
  induction l with
  | nil => exact fun _ => ⟨[], rfl⟩
  | cons kv t ih =>
    intro hall
    obtain ⟨s, hs⟩ := hall kv (List.mem_cons_self _ _)
    obtain ⟨out, hout⟩ := ih (fun kv2 h2 => hall kv2 (List.mem_cons_of_mem _ h2))
    rw [List.mapM_cons]
    rw [show (do
        let ks ← pyStrScalar kv.1
        pure (ks ++ "[" ++ Nat.repr kv.2 ++ "]") :
          Except PyErr String) = .ok (s ++ "[" ++ Nat.repr kv.2 ++ "]") by
      rw [hs]; rfl]
    rw [exc_bind_ok, hout, exc_bind_ok]
    exact ⟨_, rfl⟩

theorem owners_strings_spec (acc : StatusAcc) (hacc : AccWT acc) :
    ∃ (names : List String) (topicsS : String),
      owners_topics_strings acc =
        .ok (String.intercalate "," names, topicsS) ∧
      List.Pairwise (fun a b : String => a ≤ b) names ∧ names.Nodup ∧
      (∀ s : String, s ∈ names ↔ .str s ∈ acc.owners) := by
  obtain ⟨_, _, hostr, hond, htkeys⟩ := hacc
  obtain ⟨sortedOwners, hsort, hperm, hpw⟩ :=
    pySortByKey_str_ok (id : PyVal → PyVal) acc.owners
      (fun y hy => hostr y hy)
  have hstr_out : ∀ v ∈ sortedOwners, ∃ t, v = .str t :=
    fun v hv => hostr v (hperm.mem_iff.mp hv)
  have hmap_out : sortedOwners = (strsOf sortedOwners).map .str :=
    allstr_eq_map sortedOwners hstr_out
  obtain ⟨sortedTopics, hsortT, hpermT, _⟩ :=
    pySortByKey_str_ok (Prod.fst : PyVal × Nat → PyVal) acc.topics htkeys
  have hkeysT : ∀ kv ∈ sortedTopics, ∃ s, (kv : PyVal × Nat).1 = .str s :=
    fun kv hkv => htkeys kv (hpermT.mem_iff.mp hkv)
  obtain ⟨topicsOut, htopicsOut⟩ := mapM_topicsStrings_ok sortedTopics hkeysT
  refine ⟨strsOf sortedOwners, String.intercalate "," topicsOut, ?_, ?_, ?_, ?_⟩
  · rw [owners_topics_strings,
      show pySorted acc.owners = pySortByKey id acc.owners from rfl,
      hsort, exc_bind_ok]
    conv_lhs => rw [hmap_out]
    rw [pyJoin_strs, exc_bind_ok, hsortT, exc_bind_ok, htopicsOut, exc_bind_ok]
    rfl
  · have hpw2 := hpw
    rw [hmap_out] at hpw2
    have := List.pairwise_map.mp hpw2
    exact this.imp (fun h => h _ _ rfl rfl)
  · have hnd2 : sortedOwners.Nodup := (hperm.nodup_iff).mpr hond
    rw [hmap_out] at hnd2
    exact List.Nodup.of_map _ hnd2
  · intro s
    constructor
    · intro hs
      apply hperm.mem_iff.mp
      rw [hmap_out]
      exact List.mem_map_of_mem _ hs
    · intro hs
      have := hperm.mem_iff.mpr hs
      rw [hmap_out] at this
      obtain ⟨a, ha, hee⟩ := List.mem_map.mp this
      injection hee with hee'
      rw [← hee']
      exact ha

theorem consumer_status_data_rest_ok (compile : String → Regex)
    (ft : Option String) (kvs : List (String × PyVal)) (ps : List PyVal)
    (hpart : (dictLookup kvs "partitions").getD (.list []) = .list ps)
    (hwt : ∀ p ∈ ps, WTPart p) (lagv : PyVal) :
    ∃ acc', consumer_status_data_rest compile ft (.dict kvs) lagv =
        .ok ⟨lagv, (dictLookup kvs "status").getD (.str "?"),
          (dictLookup kvs "totallag").getD (.int 0), acc'⟩ ∧
      acc'.owners = ps.foldl (ownerStep compile ft) [] ∧ AccWT acc' := by
  have hinit : AccWT ⟨[], [], .int 0, .int 0⟩ :=
    ⟨⟨0, rfl⟩, ⟨0, rfl⟩,
      fun v hv => absurd hv (List.not_mem_nil v), List.nodup_nil,
      fun kv hkv => absurd hkv (List.not_mem_nil kv)⟩
  obtain ⟨acc', hfold, ho, hacc'⟩ :=
    status_fold_ok compile ft ps ⟨[], [], .int 0, .int 0⟩ hwt hinit
  refine ⟨acc', ?_, by rw [ho], hacc'⟩
  rw [consumer_status_data_rest, pyGet_dict, exc_bind_ok, pyGet_dict,
    exc_bind_ok, pyGet_dict, exc_bind_ok, hpart, pyIter_list, exc_bind_ok,
    hfold, exc_bind_ok]
  rfl

theorem consumer_status_data_ok (compile : String → Regex)
    (ft : Option String) (kvs : List (String × PyVal)) (ps : List PyVal)
    (hpart : (dictLookup kvs "partitions").getD (.list []) = .list ps)
    (hwt : ∀ p ∈ ps, WTPart p)
    (hmax : ∀ ml, dictLookup kvs "maxlag" = some ml → isTruthy ml = true →
      ∃ mkvs, ml = .dict mkvs) :
    ∃ d, consumer_status_data compile ft (.dict kvs) = .ok d ∧
      (∀ ml mkvs, dictLookup kvs "maxlag" = some ml → ml = .dict mkvs →
        isTruthy ml = true → d.lag = (get_partition_stats_dict mkvs).lag) ∧
      ((dictLookup kvs "maxlag" = Option.none ∨
        ∃ ml, dictLookup kvs "maxlag" = some ml ∧ isTruthy ml = false) →
        d.lag = .int 0) ∧
      d.status = (dictLookup kvs "status").getD (.str "?") ∧
      d.totalLag = (dictLookup kvs "totallag").getD (.int 0) ∧
      d.acc.owners = ps.foldl (ownerStep compile ft) [] ∧
      AccWT d.acc := by
  rw [consumer_status_data, pyIn_dict, exc_bind_ok]
  cases hml : dictLookup kvs "maxlag" with
  | none =>
    simp only [Option.isSome_none, Bool.false_eq_true, if_false]
    rw [exc_bind_pure]
    obtain ⟨acc', hrest, ho, hacc'⟩ :=
      consumer_status_data_rest_ok compile ft kvs ps hpart hwt (.int 0)
    rw [hrest]
    refine ⟨_, rfl, ?_, ?_, rfl, rfl, ho, hacc'⟩
    · intro ml mkvs hml2 _ _
      exact Option.noConfusion hml2
    · intro _
      rfl
  | some ml =>
    simp only [Option.isSome_some, if_true]
    have hidx : pyIndex (.dict kvs) "maxlag" = .ok ml := by
      rw [pyIndex, hml]
    rw [hidx, exc_bind_ok]
    by_cases htr : isTruthy ml = true
    · obtain ⟨mkvs, rfl⟩ := hmax ml hml htr
      simp only [htr, if_true]
      rw [get_partition_stats_dict_eq, exc_bind_ok, exc_bind_pure]
      obtain ⟨acc', hrest, ho, hacc'⟩ :=
        consumer_status_data_rest_ok compile ft kvs ps hpart hwt
          (get_partition_stats_dict mkvs).lag
      rw [hrest]
      refine ⟨_, rfl, ?_, ?_, rfl, rfl, ho, hacc'⟩
      · intro ml2 mkvs2 hml2 heq _
        injection hml2 with hml2'
        rw [← hml2'] at heq
        injection heq with heq'
        rw [heq']
      · rintro (h | ⟨ml2, hml2, htr2⟩)
        · exact Option.noConfusion h
        · injection hml2 with hml2'
          rw [← hml2'] at htr2
          rw [htr] at htr2
          exact Bool.noConfusion htr2
    · rw [Bool.not_eq_true] at htr
      simp only [htr, Bool.false_eq_true, if_false]
      rw [exc_bind_pure]
      obtain ⟨acc', hrest, ho, hacc'⟩ :=
        consumer_status_data_rest_ok compile ft kvs ps hpart hwt (.int 0)
      rw [hrest]
      refine ⟨_, rfl, ?_, ?_, rfl, rfl, ho, hacc'⟩
      · intro ml2 mkvs2 hml2 _ htr2
        injection hml2 with hml2'
        rw [← hml2', htr] at htr2
        exact Bool.noConfusion htr2
      · intro _
        rfl

/-- A consumer-status payload with owners `""` and `"alice"` over two
filter-passing partitions (the spec's verbose-owners example). -/
def C6ExampleCS : PyVal :=
  .dict [("totallag", .int 5), ("maxlag", .dict [("current_lag", .int 3)]),
    ("partitions", .list [
      .dict [("topic", .str "tA"), ("owner", .str ""),
        ("end", .dict [("offset", .int 10), ("timestamp", .int 20)])],
      .dict [("topic", .str "tA"), ("owner", .str "alice"),
        ("end", .dict [("offset", .int 5), ("timestamp", .int 30)])]])]

/-- A consumer-status payload whose first partition has no `owner` key
at all (so its normalized owner is the `'?'` sentinel). -/
def C10ExampleCS : PyVal :=
  .dict [("partitions", .list [
    .dict [("topic", .str "tA"),
      ("end", .dict [("offset", .int 10), ("timestamp", .int 20)])],
    .dict [("topic", .str "tA"), ("owner", .str "alice"),
      ("end", .dict [("offset", .int 5), ("timestamp", .int 30)])]])]

/-- C6: in the consumer-status summary, for every consumer whose status
payload is well-typed: the derived lag is the `maxlag` record's
normalized lag when that field is present and truthy and 0 otherwise;
the total lag is the payload's `totallag` with default 0; and the
verbose `Owners` string is the comma-join of a sorted duplicate-free
list containing exactly the non-empty owners of the topic-filtered
partitions.  Concretely, owners `""` and `"alice"` render exactly
`"alice"`, and a payload with `totallag = 0` and no `maxlag` reports
`lag = 0` and `total lag = 0`. -/
theorem consumer_status_summary_spec :
    ∀ (compile : String → Regex) (ft : Option String)
      (kvs : List (String × PyVal)) (ps : List PyVal),
      (dictLookup kvs "partitions").getD (.list []) = .list ps →
      (∀ p ∈ ps, WTPart p) →
      (∀ ml, dictLookup kvs "maxlag" = some ml → isTruthy ml = true →
        ∃ mkvs, ml = .dict mkvs) →
      (∃ d, consumer_status_data compile ft (.dict kvs) = .ok d ∧
        (∀ ml mkvs, dictLookup kvs "maxlag" = some ml → ml = .dict mkvs →
          isTruthy ml = true → d.lag = (get_partition_stats_dict mkvs).lag) ∧
        ((dictLookup kvs "maxlag" = Option.none ∨
          ∃ ml, dictLookup kvs "maxlag" = some ml ∧ isTruthy ml = false) →
          d.lag = .int 0) ∧
        d.totalLag = (dictLookup kvs "totallag").getD (.int 0) ∧
        (∃ (names : List String) (topicsS : String),
          owners_topics_strings d.acc =
            .ok (String.intercalate "," names, topicsS) ∧
          List.Pairwise (fun a b : String => a ≤ b) names ∧ names.Nodup ∧
          (∀ s : String, s ∈ names ↔
            ∃ p ∈ ps, ownerContrib compile ft p s))) ∧
      (∀ rdate rage : Int → String,
        (report_consumer_status_row (fun _ => Regex.any) Option.none false
          true rdate rage (.str "grp") C6ExampleCS).map (fun r => r[8]?) =
          .ok (some (.str "alice"))) ∧
      (∀ rdate rage : Int → String,
        (report_consumer_status_row (fun _ => Regex.any) Option.none false
          false rdate rage (.str "grp")
          (.dict [("totallag", .int 0)])).map (fun r => (r[2]?, r[3]?)) =
          .ok (some (.str "0"), some (.str "0"))) := by
  intro compile ft kvs ps hpart hwt hmax
  refine ⟨?_, fun _ _ => rfl, fun _ _ => rfl⟩
  obtain ⟨d, hd, hlag1, hlag2, hst, htot, ho, hacc⟩ :=
    consumer_status_data_ok compile ft kvs ps hpart hwt hmax
  obtain ⟨names, topicsS, hots, hpw, hnd, hmem⟩ := owners_strings_spec d.acc hacc
  refine ⟨d, hd, hlag1, hlag2, htot, names, topicsS, hots, hpw, hnd, ?_⟩
  intro s
  rw [hmem s, ho,
    mem_ownerStep_fold compile ft ps [] hwt
      (fun v hv => absurd hv (List.not_mem_nil v)) s]
  constructor
  · rintro (h | h)
    · exact absurd h (List.not_mem_nil _)
    · exact h
  · exact fun h => Or.inr h

/-- Witness for `consumer_status_summary_spec`: the verbose `Owners`
column for owners `""` and `"alice"` is exactly `"alice"`. -/
theorem consumer_status_summary_spec_witness :
    (report_consumer_status_row (fun _ => Regex.any) Option.none false true
      (fun _ => "") (fun _ => "") (.str "grp") C6ExampleCS).map
      (fun r => r[8]?) = .ok (some (.str "alice")) :=
  (consumer_status_summary_spec (fun _ => Regex.any) Option.none
    [("totallag", .int 5), ("maxlag", .dict [("current_lag", .int 3)]),
     ("partitions", .list [
       .dict [("topic", .str "tA"), ("owner", .str ""),
         ("end", .dict [("offset", .int 10), ("timestamp", .int 20)])],
       .dict [("topic", .str "tA"), ("owner", .str "alice"),
         ("end", .dict [("offset", .int 5), ("timestamp", .int 30)])]])]
    [.dict [("topic", .str "tA"), ("owner", .str ""),
       ("end", .dict [("offset", .int 10), ("timestamp", .int 20)])],
     .dict [("topic", .str "tA"), ("owner", .str "alice"),
       ("end", .dict [("offset", .int 5), ("timestamp", .int 30)])]]
    rfl
    (by
      intro p hp
      rcases List.mem_cons.mp hp with h | h
      · exact ⟨_, h, ⟨"tA", rfl⟩, ⟨"", rfl⟩, ⟨10, rfl⟩, ⟨20, rfl⟩⟩
      · rcases List.mem_cons.mp h with h2 | h2
        · exact ⟨_, h2, ⟨"tA", rfl⟩, ⟨"alice", rfl⟩, ⟨5, rfl⟩, ⟨30, rfl⟩⟩
        · exact absurd h2 (List.not_mem_nil p))
    (by
      intro ml hml _
      injection hml with hml'
      exact ⟨[("current_lag", .int 3)], hml'.symm⟩)).2.1
    (fun _ => "") (fun _ => "")

/-- C10: a partition record without an `owner` key is normalized to the
sentinel owner `"?"`, which is a non-empty (truthy) string, so it is
inserted into the owner set; the verbose `Owners` column can therefore
contain `"?"` (here rendered as `"?,alice"`) even though empty-string
owners are excluded. -/
theorem missing_owner_contributes_question_mark :
    (∀ kvs, dictLookup kvs "owner" = Option.none →
      (get_partition_stats_dict kvs).owner = .str "?" ∧
      isTruthy (get_partition_stats_dict kvs).owner = true) ∧
    (∀ rdate rage : Int → String,
      (report_consumer_status_row (fun _ => Regex.any) Option.none false true
        rdate rage (.str "grp") C10ExampleCS).map (fun r => r[8]?) =
        .ok (some (.str "?,alice"))) := by
  constructor
  · intro kvs h
    have howner : (get_partition_stats_dict kvs).owner = .str "?" := by
      show (dictLookup kvs "owner").getD (.str "?") = .str "?"
      rw [h]
      rfl
    exact ⟨howner, by rw [howner]; rfl⟩
  · intro rdate rage
    rfl

/-- Witness for `missing_owner_contributes_question_mark` on the empty
record (no `owner` key at all). -/
theorem missing_owner_contributes_question_mark_witness :
    (get_partition_stats_dict []).owner = .str "?" ∧
    isTruthy (get_partition_stats_dict []).owner = true :=
  missing_owner_contributes_question_mark.1 [] rfl

end Burrow
